import Mathlib

/-!
Verification of the `pynostr` client library (modules `pynostr/__init__.py`,
`pynostr/event.py`, `pynostr/client.py`, `pynostr/filter.py`) against its
natural-language specification.

The Python code is shallowly embedded: every pure computation of the source is
translated into an executable Lean definition, Python exceptions become an
explicit error type threaded through `Except`, and the external cryptographic
primitives (secp256k1 point arithmetic, schnorr sign, AES block/stream cipher)
are parameters of the definitions that consume them, exactly as the spec
declares them to be opaque collaborators.  SHA-256, UTF-8, base64 and the
bech32 bit regrouping are fully implemented so that every claim can be
evaluated on concrete inputs.
-/

namespace Pynostr

/-! ## Byte-level utilities: hex, UTF-8 -/

/-- Lowercase hexadecimal digit for a value below 16. -/
def hexDigitChar (n : Nat) : Char :=
  if n < 10 then Char.ofNat (48 + n) else Char.ofNat (87 + n)

/-- Hexadecimal rendering of one byte, two lowercase digits (`bytes.hex`). -/
def hexByte (b : Nat) : List Char :=
  [hexDigitChar (b / 16 % 16), hexDigitChar (b % 16)]

/-- Python `bytes.hex()`: lowercase hex string of a byte sequence. -/
def hexOfBytes (bs : List Nat) : String :=
  ⟨(bs.map hexByte).flatten⟩

/-- Value of one hexadecimal digit, `none` for a non-hex character. -/
def hexDigitVal (c : Char) : Option Nat :=
  if 48 ≤ c.toNat ∧ c.toNat ≤ 57 then some (c.toNat - 48)
  else if 97 ≤ c.toNat ∧ c.toNat ≤ 102 then some (c.toNat - 87)
  else if 65 ≤ c.toNat ∧ c.toNat ≤ 70 then some (c.toNat - 55)
  else none

/-- Python `bytes.fromhex` / `binascii.unhexlify` on a character list:
pairs of hex digits to bytes, `none` on an odd length or a non-hex digit. -/
def bytesFromHexAux : List Char → Option (List Nat)
  | [] => some []
  | [_] => none
  | c1 :: c2 :: rest => do
      let h ← hexDigitVal c1
      let l ← hexDigitVal c2
      let bs ← bytesFromHexAux rest
      pure ((h * 16 + l) :: bs)

/-- Python `bytes.fromhex` / `binascii.unhexlify` of a string. -/
def bytesFromHex (s : String) : Option (List Nat) :=
  bytesFromHexAux s.data

/-- UTF-8 encoding of a single code point (assumed valid, as Lean `Char` is). -/
def utf8Char (n : Nat) : List Nat :=
  if n < 0x80 then [n]
  else if n < 0x800 then [0xc0 + n / 0x40, 0x80 + n % 0x40]
  else if n < 0x10000 then
    [0xe0 + n / 0x1000, 0x80 + n / 0x40 % 0x40, 0x80 + n % 0x40]
  else
    [0xf0 + n / 0x40000, 0x80 + n / 0x1000 % 0x40,
     0x80 + n / 0x40 % 0x40, 0x80 + n % 0x40]

/-- Python `str.encode("utf-8")`: the UTF-8 byte sequence of a string. -/
def utf8Encode (s : String) : List Nat :=
  (s.data.map fun c => utf8Char c.toNat).flatten

/-- Decoding of one UTF-8 character at the head of a byte stream: the code
point and the remaining bytes, `none` on a malformed head (stray or missing
continuation byte, overlong form, surrogate, out of range).  Together with
`utf8DecodeList` this models Python `bytes.decode("utf-8")`. -/
def utf8Step (l : List Nat) : Option (Nat × List Nat) :=
  match l with
  | [] => none
  | b :: rest =>
    if b < 0x80 then some (b, rest)
    else if b < 0xc0 then none
    else if b < 0xe0 then
      match rest with
      | b2 :: rest2 =>
        if 0x80 ≤ b2 ∧ b2 < 0xc0 then
          let n := (b - 0xc0) * 0x40 + (b2 - 0x80)
          if 0x80 ≤ n then some (n, rest2) else none
        else none
      | [] => none
    else if b < 0xf0 then
      match rest with
      | b2 :: b3 :: rest3 =>
        if (0x80 ≤ b2 ∧ b2 < 0xc0) ∧ (0x80 ≤ b3 ∧ b3 < 0xc0) then
          let n := (b - 0xe0) * 0x1000 + (b2 - 0x80) * 0x40 + (b3 - 0x80)
          if 0x800 ≤ n ∧ ¬ (0xd800 ≤ n ∧ n < 0xe000) then some (n, rest3)
          else none
        else none
      | _ => none
    else if b < 0xf8 then
      match rest with
      | b2 :: b3 :: b4 :: rest4 =>
        if (0x80 ≤ b2 ∧ b2 < 0xc0) ∧ (0x80 ≤ b3 ∧ b3 < 0xc0) ∧
            (0x80 ≤ b4 ∧ b4 < 0xc0) then
          let n := (b - 0xf0) * 0x40000 + (b2 - 0x80) * 0x1000 +
            (b3 - 0x80) * 0x40 + (b4 - 0x80)
          if 0x10000 ≤ n ∧ n < 0x110000 then some (n, rest4) else none
        else none
      | _ => none
    else none

/-- Character-by-character UTF-8 decoding; the fuel is an iteration bound
(each step consumes at least one byte, so the byte count is always
enough). -/
def utf8DecodeList : Nat → List Nat → Option (List Nat)
  | _, [] => some []
  | 0, _ :: _ => none
  | fuel + 1, b :: rest =>
    match utf8Step (b :: rest) with
    | none => none
    | some (n, rest2) => (utf8DecodeList fuel rest2).map (n :: ·)

/-- Python `bytes.decode("utf-8")` as a string. -/
def utf8Decode (bs : List Nat) : Option String :=
  (utf8DecodeList bs.length bs).map fun ns => ⟨ns.map Char.ofNat⟩

/-! ## Python `json.dumps` with `separators=(",", ":")` and
`ensure_ascii=False`, restricted to the value shapes the source serializes
(integers, strings, nested arrays). -/

/-- Escape of one character inside a JSON string literal, as produced by
Python `json.dumps(..., ensure_ascii=False)`: quote, backslash and the five
short control escapes, `\u00xx` for other control characters, every other
character (including non-ASCII) emitted literally. -/
def jsonEscapeChar (c : Char) : List Char :=
  if c = '"' then ['\\', '"']
  else if c = '\\' then ['\\', '\\']
  else if c.toNat = 8 then ['\\', 'b']
  else if c.toNat = 9 then ['\\', 't']
  else if c.toNat = 10 then ['\\', 'n']
  else if c.toNat = 12 then ['\\', 'f']
  else if c.toNat = 13 then ['\\', 'r']
  else if c.toNat < 32 then
    ['\\', 'u', '0', '0', hexDigitChar (c.toNat / 16), hexDigitChar (c.toNat % 16)]
  else [c]

/-- JSON string literal of a Python string (`ensure_ascii=False`). -/
def pyJsonQuote (s : String) : String :=
  ⟨'"' :: (s.data.map jsonEscapeChar).flatten ++ ['"']⟩

/-- JSON values appearing in the canonical event serialization (`null` is
Python `None`, which `set_pow_tag` can serialize since it skips the
completeness check of `serialize`). -/
inductive JValue where
  | null
  | num (i : Int)
  | str (s : String)
  | arr (l : List JValue)

mutual

/-- Python `json.dumps(value, separators=(",", ":"), ensure_ascii=False)`. -/
def JValue.dumps : JValue → String
  | .null => "null"
  | .num i => toString i
  | .str s => pyJsonQuote s
  | .arr l => "[" ++ JValue.dumpsList l ++ "]"

/-- Comma-joined serialization of an array body (the `","` separator). -/
def JValue.dumpsList : List JValue → String
  | [] => ""
  | [v] => v.dumps
  | v :: v2 :: rest => v.dumps ++ "," ++ JValue.dumpsList (v2 :: rest)

end

/-! ## Exceptions of the source, as one error type -/

/-- Exceptions raised by the embedded code paths.  `emptyEvent` is
`EmptyEventException`, `emptyTag` is `EmptyTagException`, `invalidHex` is
`InvalidHexString`, `integrity` is `IntegrityError`, `orphan` is
`OrphanEvent`, `bech32Decode` is `Bech32DecodeError`, `nip04` is
`Nip04EncryptionError`, `base64Err` is `Base64ProcessingError`,
`noRecipient` is the bare `Exception` of `Event.encrypt`, `valueError`,
`typeError` and `attributeError` are the Python builtins of those names
(`valueError` also covers its `binascii.Error` and `UnicodeDecodeError`
subclasses where they escape uncaught). -/
inductive PyErr where
  | emptyEvent
  | emptyTag
  | invalidHex
  | integrity
  | orphan
  | bech32Decode
  | nip04
  | base64Err
  | noRecipient
  | valueError
  | typeError
  | attributeError
deriving DecidableEq, Repr

/-! ## The Event entity (`pynostr/event.py`, class `Event`)

Fields that `Event.__init__` initializes to `None` are `Option`s; `tags` is
always a `TagList` (a `list` subclass) through the public API, so it is a
plain list of tags, each tag a list of strings. -/

structure Event where
  id : Option String
  pubkey : Option String
  created_at : Option Int
  kind : Option Int
  tags : List (List String)
  content : Option String
  sig : Option String
deriving DecidableEq, Repr

/-- Event with every optional field unset, as after `Event.__init__` before
`load` (except that `created_at` is set from the clock there; it is left
unset here so that completeness checks can be exercised). -/
def Event.empty : Event :=
  { id := none, pubkey := none, created_at := none, kind := none,
    tags := [], content := none, sig := none }

/-- Translation of `Event.serialize`: raise `EmptyEventException` if one of
the fields other than `id` and `sig` is `None`, raise `EmptyTagException` if
some tag is the empty list, otherwise return the UTF-8 bytes of
`json.dumps([0, pubkey, created_at, kind, tags, content],
separators=(",", ":"), ensure_ascii=False)`. -/
def Event.serialize (e : Event) : Except PyErr (List Nat) :=
  match e.pubkey, e.created_at, e.kind, e.content with
  | some pk, some ca, some kd, some ct =>
    if e.tags.any fun t => t.length = 0 then .error .emptyTag
    else .ok (utf8Encode (JValue.dumps (.arr
      [.num 0, .str pk, .num ca, .num kd,
       .arr (e.tags.map fun t => .arr (t.map .str)), .str ct])))
  | _, _, _, _ => .error .emptyEvent

/-! ## Spec-side canonical form (for the refinement part of claim C1)

Written from the spec sentence: "produces the exact byte sequence of a JSON
array `[0, pubkey, created_at, kind, tags, content]` with no insignificant
whitespace, keys/values emitted in that fixed order, and non-ASCII characters
emitted literally (not escaped)". -/

/-- Comma-separated join of rendered values. -/
def commaJoin : List String → String
  | [] => ""
  | [x] => x
  | x :: y :: rest => x ++ "," ++ commaJoin (y :: rest)

/-- Spec-side rendering of the tag list: a JSON array of arrays of strings,
comma separated, no whitespace. -/
def specTagsString (tags : List (List String)) : String :=
  "[" ++ commaJoin
    (tags.map fun t => "[" ++ commaJoin (t.map pyJsonQuote) ++ "]") ++ "]"

/-- Spec-side canonical serialization string: the six values in fixed order,
comma separated, enclosed in brackets, with no insignificant whitespace. -/
def specCanonicalString (pk : String) (ca kd : Int)
    (tags : List (List String)) (ct : String) : String :=
  "[0," ++ pyJsonQuote pk ++ "," ++ toString ca ++ "," ++ toString kd ++ ","
    ++ specTagsString tags ++ "," ++ pyJsonQuote ct ++ "]"

end Pynostr

namespace Pynostr

/-! ## SHA-256 (`hashlib.sha256`), implemented over byte lists -/

/-- Right rotation of a 32-bit word. -/
def rotr32 (n w : Nat) : Nat :=
  ((w >>> n) ||| (w <<< (32 - n))) % 4294967296

/-- Big-endian byte rendering of a value on `n` bytes. -/
def bytesBE (n v : Nat) : List Nat :=
  (List.range n).map fun i => v / 256 ^ (n - 1 - i) % 256

/-- SHA-256 message padding: `0x80`, zeros to 56 mod 64, 8-byte bit length. -/
def sha256Pad (msg : List Nat) : List Nat :=
  msg ++ [0x80] ++ List.replicate ((119 - msg.length % 64) % 64) 0
    ++ bytesBE 8 (8 * msg.length)

/-- Big-endian 32-bit words of a byte list (length a multiple of 4). -/
def toWords32 : List Nat → List Nat
  | b1 :: b2 :: b3 :: b4 :: rest =>
    (((b1 * 256 + b2) * 256 + b3) * 256 + b4) :: toWords32 rest
  | _ => []

/-- SHA-256 round constants (decimal rendering of the 64 standard words). -/
def sha256K : List Nat :=
  [1116352408, 1899447441, 3049323471, 3921009573, 961987163, 1508970993,
   2453635748, 2870763221, 3624381080, 310598401, 607225278, 1426881987,
   1925078388, 2162078206, 2614888103, 3248222580, 3835390401, 4022224774,
   264347078, 604807628, 770255983, 1249150122, 1555081692, 1996064986,
   2554220882, 2821834349, 2952996808, 3210313671, 3336571891, 3584528711,
   113926993, 338241895, 666307205, 773529912, 1294757372, 1396182291,
   1695183700, 1986661051, 2177026350, 2456956037, 2730485921, 2820302411,
   3259730800, 3345764771, 3516065817, 3600352804, 4094571909, 275423344,
   430227734, 506948616, 659060556, 883997877, 958139571, 1322822218,
   1537002063, 1747873779, 1955562222, 2024104815, 2227730452, 2361852424,
   2428436474, 2756734187, 3204031479, 3329325298]

/-- Working state of the compression function. -/
structure Hash8 where
  a : Nat
  b : Nat
  c : Nat
  d : Nat
  e : Nat
  f : Nat
  g : Nat
  h : Nat

/-- Initial SHA-256 hash state (decimal rendering of the standard words). -/
def sha256Init : Hash8 :=
  ⟨1779033703, 3144134277, 1013904242, 2773480762, 1359893119, 2600822924,
   528734635, 1541459225⟩

/-- Message-schedule extension of a 16-word block to 64 words. -/
def sha256Extend (block : List Nat) : List Nat :=
  (List.range 48).foldl
    (fun w _ =>
      let n := w.length
      let s0 := rotr32 7 (w.getD (n - 15) 0) ^^^ rotr32 18 (w.getD (n - 15) 0)
        ^^^ (w.getD (n - 15) 0 >>> 3)
      let s1 := rotr32 17 (w.getD (n - 2) 0) ^^^ rotr32 19 (w.getD (n - 2) 0)
        ^^^ (w.getD (n - 2) 0 >>> 10)
      w ++ [(w.getD (n - 16) 0 + s0 + w.getD (n - 7) 0 + s1) % 4294967296])
    block

/-- One round of the SHA-256 compression function. -/
def sha256Round (st : Hash8) (kw : Nat × Nat) : Hash8 :=
  let S1 := rotr32 6 st.e ^^^ rotr32 11 st.e ^^^ rotr32 25 st.e
  let ch := (st.e &&& st.f) ^^^ ((st.e ^^^ 0xffffffff) &&& st.g)
  let t1 := (st.h + S1 + ch + kw.1 + kw.2) % 4294967296
  let S0 := rotr32 2 st.a ^^^ rotr32 13 st.a ^^^ rotr32 22 st.a
  let mj := (st.a &&& st.b) ^^^ (st.a &&& st.c) ^^^ (st.b &&& st.c)
  let t2 := (S0 + mj) % 4294967296
  ⟨(t1 + t2) % 4294967296, st.a, st.b, st.c,
   (st.d + t1) % 4294967296, st.e, st.f, st.g⟩

/-- Compression of one 16-word block into the running state. -/
def sha256Block (st : Hash8) (block : List Nat) : Hash8 :=
  let w := sha256Extend block
  let r := (sha256K.zip w).foldl sha256Round st
  ⟨(st.a + r.a) % 4294967296, (st.b + r.b) % 4294967296,
   (st.c + r.c) % 4294967296, (st.d + r.d) % 4294967296,
   (st.e + r.e) % 4294967296, (st.f + r.f) % 4294967296,
   (st.g + r.g) % 4294967296, (st.h + r.h) % 4294967296⟩

/-- Fold of the compression function over all 16-word blocks (the word list
produced from a padded message always has a length that is a multiple of
16; a ragged final block cannot arise and is absorbed as a last block). -/
def sha256Loop (st : Hash8) : List Nat → Hash8
  | w0 :: w1 :: w2 :: w3 :: w4 :: w5 :: w6 :: w7 ::
    w8 :: w9 :: w10 :: w11 :: w12 :: w13 :: w14 :: w15 :: rest =>
    sha256Loop (sha256Block st
      [w0, w1, w2, w3, w4, w5, w6, w7, w8, w9, w10, w11, w12, w13, w14, w15])
      rest
  | [] => st
  | ws => sha256Block st ws

/-- SHA-256 digest (32 bytes) of a byte list (`hashlib.sha256(...).digest()`). -/
def sha256 (msg : List Nat) : List Nat :=
  let st := sha256Loop sha256Init (toWords32 (sha256Pad msg))
  ([st.a, st.b, st.c, st.d, st.e, st.f, st.g, st.h].map (bytesBE 4)).flatten

/-- Hexadecimal SHA-256 digest (`hashlib.sha256(...).hexdigest()`). -/
def sha256Hex (msg : List Nat) : String :=
  hexOfBytes (sha256 msg)

end Pynostr

-- Validation of the digest against the FIPS 180-2 test vector and the
-- empty-input vector.
example :
    Pynostr.sha256Hex (Pynostr.utf8Encode "abc") =
      "ba7816bf8f01cfea414140de5dae2223b00361a396177a9cb410ff61f20015ad" := by
  decide

example :
    Pynostr.sha256Hex [] =
      "e3b0c44298fc1c149afbf4c8996fb92427ae41e4649b934ca495991b7852b855" := by
  decide

namespace Pynostr

/-! ## Event identity, verification, signing, proof of work
(`pynostr/event.py`, `Event.identify` / `Event.verify` / `Event.sign` /
`Event.set_pow_tag`)

The elliptic-curve operations live in the external `cSecp256k1` package; the
spec declares them opaque collaborators.  They are modelled as parameters:
a private key is a `SchnorrKey` carrying its derived x-only public key and
its raw signing routine, and `Event.verify` takes the external
`cSecp256k1._schnorr.verify` as a function argument. -/

/-- Model of the external `cSecp256k1.Schnorr` private key as used by
`Event.sign`: `pubkey` is the `PrvKey.pubkey` property (x-only public key,
64 hex characters) and `signRaw` is `lambda data: k.sign(data).raw().decode("utf-8")`,
the external signing primitive applied to the byte string the caller hands
it. -/
structure SchnorrKey where
  pubkey : String
  signRaw : List Nat → String

/-- Translation of `Event.identify`: set
`id = hashlib.sha256(self.serialize()).hexdigest()`.  Mutation of `self` is
rendered by returning the updated event. -/
def Event.identify (e : Event) : Except PyErr Event := do
  let serial ← e.serialize
  pure { e with id := some (sha256Hex serial) }

/-- Translation of `Event.verify`: recompute the digest of the current
serialization and raise `IntegrityError` if it differs from `id`; then, if a
signature is present, return the verdict of the external
`cSecp256k1._schnorr.verify` applied to the UTF-8 of `id`, `pubkey` and the
two 64-character halves of `sig`; with no signature return `False`.  The
`getD` defaults are unreachable: reaching them requires `serialize` to have
succeeded (so `pubkey` is set) and the integrity guard to have passed (so
`id` is set). -/
def Event.verify (schnorrVerify : String → String → String → String → Bool)
    (e : Event) : Except PyErr Bool := do
  let serial ← e.serialize
  if e.id ≠ some (sha256Hex serial) then .error .integrity
  else match e.sig with
    | some s =>
      pure (schnorrVerify (e.id.getD "") (e.pubkey.getD "")
        (s.take 64) (s.drop 64))
    | none => pure false

/-- Byte string that `Event.sign` hands to the external signing primitive:
the canonical serial (`serial = self.serialize()`) of the event after
`self.pubkey = prvkey.pubkey` has been set. -/
def Event.signMessage (k : SchnorrKey) (e : Event) : Except PyErr (List Nat) :=
  Event.serialize { e with pubkey := some k.pubkey }

/-- Translation of `Event.sign`: set `pubkey` from the key, compute the
serial, set `id` to its hex sha256 digest, and set `sig` to the raw hex of
`prvkey.sign(serial)` — the external primitive receives `serial` itself.
The same (mutated) event is returned. -/
def Event.sign (k : SchnorrKey) (e : Event) : Except PyErr Event := do
  let serial ← e.signMessage k
  pure { e with pubkey := some k.pubkey, id := some (sha256Hex serial),
                sig := some (k.signRaw serial) }

/-- Python `int(s, base=2)` restricted to the digit strings `set_pow_tag`
builds: `ValueError` on the empty string or a non-binary digit. -/
def pyIntBase2 (s : String) : Except PyErr Nat :=
  if s.data = [] ∨ s.data.any (fun c => c ≠ '0' ∧ c ≠ '1') then .error .valueError
  else .ok (s.data.foldl (fun a c => 2 * a + (if c = '1' then 1 else 0)) 0)

/-- Python `int(s, base=16)` on the (always valid) hex digest strings. -/
def natOfHex (s : String) : Nat :=
  s.data.foldl (fun a c => 16 * a + (hexDigitVal c).getD 0) 0

/-- The serial string `set_pow_tag` hashes for a candidate nonce: the
direct `json.dumps` of the six fields (no completeness or empty-tag check,
`None` becoming `null`) with the placeholder nonce tag appended, after the
`serial % nonce` substitution.  The substitution is modelled by inserting
the decimal nonce directly, which is what `%` produces as long as the event
fields contain no percent character (so that the template's only format
specifier is the placeholder). -/
def powSerial (e : Event) (pk : String) (difficulty nonce : Nat) : String :=
  JValue.dumps (.arr
    [.num 0, .str pk,
     (match e.created_at with | some ca => .num ca | none => .null),
     (match e.kind with | some kd => .num kd | none => .null),
     .arr ((e.tags ++ [["nonce", toString nonce, toString difficulty]]).map
       fun t => .arr (t.map .str)),
     (match e.content with | some ct => .str ct | none => .null)])

/-- The `while` search of `set_pow_tag`, observed for `fuel` iterations:
starting at `nonce`, return the first candidate whose hash value has an
empty intersection with `mask`; `none` means the unbounded source loop has
not terminated within the observation budget. -/
def powFind (hash : Nat → Nat) (mask : Nat) : Nat → Nat → Option Nat
  | 0, _ => none
  | fuel + 1, nonce =>
    if hash nonce &&& mask ≠ 0 then powFind hash mask fuel (nonce + 1)
    else some nonce

/-- Translation of `Event.set_pow_tag`: raise `OrphanEvent` unless
`self.pubkey` is truthy (set and nonempty), compute
`mask = int("1" * difficulty, base=2) << (256 - difficulty)`, iterate
nonce candidates from 0 until
`int(sha256(serial % nonce).hexdigest(), 16) & mask` is zero, then append
the solved nonce tag and re-run `identify`.  `.ok none` reports a search
still running after `fuel` iterations. -/
def Event.set_pow_tag (fuel : Nat) (e : Event) (difficulty : Nat) :
    Except PyErr (Option Event) :=
  match e.pubkey with
  | none => .error .orphan
  | some pk =>
    if pk = "" then .error .orphan
    else do
      let ones ← pyIntBase2 ⟨List.replicate difficulty '1'⟩
      let mask := ones <<< (256 - difficulty)
      let hash := fun nonce =>
        natOfHex (sha256Hex (utf8Encode (powSerial e pk difficulty nonce)))
      match powFind hash mask fuel 0 with
      | none => pure none
      | some nonce => do
        let e1 := { e with
          tags := e.tags ++ [["nonce", toString nonce, toString difficulty]] }
        let e2 ← e1.identify
        pure (some e2)

end Pynostr

namespace Pynostr

/-! ## Decidable equality for `Except` results -/

instance {ε α : Type} [DecidableEq ε] [DecidableEq α] :
    DecidableEq (Except ε α) := fun a b =>
  match a, b with
  | .ok x, .ok y =>
    if h : x = y then isTrue (by rw [h]) else isFalse (by simp [h])
  | .error x, .error y =>
    if h : x = y then isTrue (by rw [h]) else isFalse (by simp [h])
  | .ok _, .error _ => isFalse (by simp)
  | .error _, .ok _ => isFalse (by simp)

/-! ## Concrete material for witnesses and counterexamples -/

/-- Example x-only public key (the one of the spec's `PrvKey` docstring). -/
def pubkeyA : String :=
  "a549420d3f3a64e59855e8c640f7c611ca567b9862fa4d10aba1c676aa7036c5"

/-- The concrete scenario event of the spec: kind 1, fixed timestamp, no
tags, content "Hello nostr !", owned by `pubkeyA`. -/
def helloEvent : Event :=
  { id := none, pubkey := some pubkeyA, created_at := some 1700000000,
    kind := some 1, tags := [], content := some "Hello nostr !", sig := none }

/-- The exact canonical serialization string the spec requires for
`helloEvent`. -/
def helloCanonical : String :=
  "[0,\"a549420d3f3a64e59855e8c640f7c611ca567b9862fa4d10aba1c676aa7036c5\",1700000000,1,[],\"Hello nostr !\"]"

/-- Hex sha256 digest of the canonical bytes of `helloEvent`. -/
def helloDigest : String :=
  "dd62dd8b27b5f90142a336d06b2c14d12fccc0c845c2012fc240c08adaa17b70"

/-- The `helloEvent` after `identify`. -/
def helloIdentified : Event := { helloEvent with id := some helloDigest }

/-- A concrete instantiation of the external schnorr verification primitive
(it never accepts; claims quantify over the primitive). -/
def svNever : String → String → String → String → Bool := fun _ _ _ _ => false

/-- A concrete instantiation of the external signing key: derived public key
`pubkeyA`, signing primitive returning an empty signature string. -/
def keyA : SchnorrKey := ⟨pubkeyA, fun _ => ""⟩

/-- The hello event without an owner, as before `sign` sets `pubkey`. -/
def helloUnowned : Event := { helloEvent with pubkey := none }

/-! ## Claim C1: exactness of `Event.serialize` -/

/-- Unfolding of the comma-separated array body. -/
theorem dumpsList_eq_commaJoin :
    (l : List JValue) → JValue.dumpsList l = commaJoin (l.map JValue.dumps)
  | [] => rfl
  | [_] => rfl
  | v :: v2 :: rest => by
    rw [show JValue.dumpsList (v :: v2 :: rest)
        = v.dumps ++ "," ++ JValue.dumpsList (v2 :: rest) from rfl,
      dumpsList_eq_commaJoin (v2 :: rest)]
    rfl

/-- The `json.dumps` rendering of the tag list equals the spec-side one. -/
theorem dumps_tags_eq_spec (tags : List (List String)) :
    JValue.dumps (.arr (tags.map fun t => .arr (t.map .str)))
      = specTagsString tags := by
  show "[" ++ JValue.dumpsList (tags.map fun t => .arr (t.map .str)) ++ "]" = _
  rw [dumpsList_eq_commaJoin, List.map_map, specTagsString]
  have h : ∀ t : List String,
      (JValue.dumps ∘ fun t => JValue.arr (t.map .str)) t
        = "[" ++ commaJoin (t.map pyJsonQuote) ++ "]" := by
    intro t
    show "[" ++ JValue.dumpsList (t.map .str) ++ "]" = _
    rw [dumpsList_eq_commaJoin, List.map_map]
    rfl
  rw [List.map_congr_left fun t _ => h t]

/-- The full `json.dumps` of the six-element canonical array equals the
spec-side concatenation. -/
theorem dumps_canonical_eq_spec (pk ct : String) (ca kd : Int)
    (tags : List (List String)) :
    JValue.dumps (.arr
      [.num 0, .str pk, .num ca, .num kd,
       .arr (tags.map fun t => .arr (t.map .str)), .str ct])
      = specCanonicalString pk ca kd tags ct := by
  show "[" ++ (toString (0 : Int) ++ "," ++ (pyJsonQuote pk ++ "," ++
    (toString ca ++ "," ++ (toString kd ++ "," ++
    (JValue.dumps (.arr (tags.map fun t => .arr (t.map .str))) ++ "," ++
      pyJsonQuote ct))))) ++ "]" = _
  rw [dumps_tags_eq_spec, specCanonicalString]
  have h0 : toString (0 : Int) = "0" := rfl
  rw [h0]
  simp only [String.append_assoc]
  rfl

/-- Claim C1.  For every event, `serialize` raises the incomplete-event
error exactly when `pubkey`, `created_at`, `kind` or `content` is unset;
on a complete event it raises the empty-tag error exactly when some tag is
the empty sequence, and otherwise returns precisely the UTF-8 bytes of the
JSON array `[0, pubkey, created_at, kind, tags, content]` in fixed order
with no insignificant whitespace (spec-side rendering
`specCanonicalString`, in which non-ASCII characters are emitted
literally); and the concrete hello event serializes to the exact canonical
byte string of the spec scenario. -/
theorem claim1_serialize_exact :
    (∀ e : Event,
      ((e.serialize = .error .emptyEvent) ↔
        (e.pubkey = none ∨ e.created_at = none ∨ e.kind = none ∨
          e.content = none))
      ∧ (∀ pk ca kd ct, e.pubkey = some pk → e.created_at = some ca →
          e.kind = some kd → e.content = some ct →
          (((e.serialize = .error .emptyTag) ↔ [] ∈ e.tags)
            ∧ ([] ∉ e.tags →
                e.serialize =
                  .ok (utf8Encode (specCanonicalString pk ca kd e.tags ct))))))
    ∧ helloEvent.serialize = .ok (utf8Encode helloCanonical) := by
  constructor
  · intro e
    obtain ⟨i, pk?, ca?, kd?, tags, ct?, sg⟩ := e
    constructor
    · cases pk? <;> cases ca? <;> cases kd? <;> cases ct? <;>
        simp [Event.serialize] <;> split <;> simp
    · intro pk ca kd ct hpk hca hkd hct
      simp only at hpk hca hkd hct
      subst hpk; subst hca; subst hkd; subst hct
      constructor
      · simp only [Event.serialize]
        split
        · rename_i hany
          simp only [List.any_eq_true, decide_eq_true_eq,
            List.length_eq_zero] at hany
          obtain ⟨t, ht, rfl⟩ := hany
          simpa using ht
        · rename_i hany
          simp only [List.any_eq_true, decide_eq_true_eq,
            List.length_eq_zero] at hany
          push_neg at hany
          constructor
          · intro h; exact absurd h (by simp)
          · intro hmem; exact absurd rfl (hany [] hmem)
      · intro hno
        simp only [Event.serialize]
        rw [if_neg]
        · rw [dumps_canonical_eq_spec]
        · simp only [List.any_eq_true, decide_eq_true_eq,
            List.length_eq_zero]
          push_neg
          intro t ht h0
          exact hno (h0 ▸ ht)
  · decide

/-- Instantiation of claim C1 at the concrete spec scenario. -/
theorem claim1_witness :
    helloEvent.serialize =
      .ok (utf8Encode (specCanonicalString pubkeyA 1700000000 1 []
        "Hello nostr !")) :=
  ((claim1_serialize_exact.1 helloEvent).2 pubkeyA 1700000000 1
    "Hello nostr !" rfl rfl rfl rfl).2 (by decide)

end Pynostr

namespace Pynostr

/-! ## Claim C2: what `Event.sign` hands to the external primitive -/

/-- Counterexample to claim C2 as stated.  On the concrete hello event the
byte string handed to the external signing primitive
(`prvkey.sign(serial)`) is the 102-byte canonical serial itself, which is
not the 32-byte sha256 digest of those canonical bytes: the source signs
the serial, leaving the hashing to the inside of the external library. -/
theorem claim2_counterexample :
    helloUnowned.signMessage keyA = .ok (utf8Encode helloCanonical) ∧
      utf8Encode helloCanonical ≠ sha256 (utf8Encode helloCanonical) := by
  constructor
  · decide
  · intro h
    have hlen := congrArg List.length h
    revert hlen
    decide

/-- Claim C2 as amended.  `sign` sets `pubkey` from the key, sets `id` to
the hex sha256 digest of the canonical bytes, and stores as `sig` the raw
signature the external primitive returns for the canonical byte sequence
itself (not for the digest), mutating and returning the same event. -/
theorem claim2_sign_fields (k : SchnorrKey) (e : Event) (serial : List Nat)
    (h : e.signMessage k = .ok serial) :
    e.sign k = .ok { e with
      pubkey := some k.pubkey,
      id := some (sha256Hex serial),
      sig := some (k.signRaw serial) } := by
  simp only [Event.sign, h, bind, Except.bind, pure, Except.pure]

/-- Instantiation of amended claim C2 at the concrete hello event. -/
theorem claim2_witness :
    helloUnowned.sign keyA = .ok { helloUnowned with
      pubkey := some keyA.pubkey,
      id := some (sha256Hex (utf8Encode helloCanonical)),
      sig := some (keyA.signRaw (utf8Encode helloCanonical)) } :=
  claim2_sign_fields keyA helloUnowned (utf8Encode helloCanonical) (by decide)

/-! ## Claim C3: `identify` then `verify` -/

/-- Changing only `id` leaves the canonical serialization unchanged. -/
theorem serialize_set_id (e : Event) (x : Option String) :
    Event.serialize { e with id := x } = e.serialize := rfl

/-- Claim C3.  For every event on which `serialize` succeeds (equivalently,
on which `identify` succeeds), running `verify` right after `identify`
never raises `IntegrityError`, whatever verdict the external schnorr
primitive would return; and if the event carries no signature, `verify`
after `identify` returns `False` rather than an error. -/
theorem claim3_identify_then_verify
    (sv : String → String → String → String → Bool) (e e1 : Event)
    (h : e.identify = .ok e1) :
    e1.verify sv ≠ .error .integrity ∧
      (e.sig = none → e1.verify sv = .ok false) := by
  unfold Event.identify at h
  cases hs : e.serialize with
  | error err =>
    rw [hs] at h
    exact absurd h (by simp [bind, Except.bind])
  | ok serial =>
    rw [hs] at h
    simp only [bind, Except.bind, pure, Except.pure, Except.ok.injEq] at h
    subst h
    unfold Event.verify
    rw [show Event.serialize { e with id := some (sha256Hex serial) }
        = e.serialize from rfl, hs]
    simp only [bind, Except.bind]
    rw [if_neg (by simp)]
    cases e.sig <;> simp [pure, Except.pure]

/-- Instantiation of claim C3 at the concrete hello event. -/
theorem claim3_witness :
    helloEvent.identify = .ok helloIdentified ∧
      helloIdentified.verify svNever ≠ .error .integrity ∧
      (helloEvent.sig = none → helloIdentified.verify svNever = .ok false) :=
  ⟨by decide,
   (claim3_identify_then_verify svNever helloEvent helloIdentified
      (by decide)).1,
   (claim3_identify_then_verify svNever helloEvent helloIdentified
      (by decide)).2⟩

/-! ## Claim C5: proof of work at difficulty 0 -/

/-- Claim C5 fails on the code: at `difficulty = 0` (the parameter's own
default value) the source evaluates `int("1" * 0, base=2)`, i.e.
`int("", base=2)`, which raises `ValueError` before any nonce search; the
call does not complete normally as the spec requires.  Evaluation of the
embedded `set_pow_tag` at the concrete hello event, difficulty 0. -/
theorem claim5_pow_zero_raises :
    Event.set_pow_tag 1000 helloEvent 0 = .error .valueError := by decide

end Pynostr

namespace Pynostr

/-! ## Relay client (`pynostr/client.py`, class `BaseThread`) -/

/-- Python membership resolution for `key in obj` applied to an `Event`
instance.  `Event` defines none of `__contains__`, `__iter__` and
`__getitem__`, so the test raises
`TypeError: argument of type 'Event' is not iterable` for every key and
every event. -/
def Event.pyContains (_e : Event) (_key : String) : Except PyErr Bool :=
  .error .typeError

/-- Outbound requests placed on the `self.request` queue. -/
inductive Request where
  | eventReq (e : Event)
  | closeReq (subId : String)
deriving DecidableEq

/-- Translation of `BaseThread.push_event`: evaluate `"sig" not in evnt`,
sign the event if the membership test says the signature is absent, then
enqueue `["EVENT", evnt.__dict__]`.  The queue effect is rendered by
returning the request that would be enqueued. -/
def push_event (evnt : Event) (k : SchnorrKey) : Except PyErr Request := do
  let mem ← evnt.pyContains "sig"
  let evnt ← if mem then pure evnt else evnt.sign k
  pure (.eventReq evnt)

/-- Claim C8 fails on the code: `push_event` begins with
`if "sig" not in evnt`, a membership test on a plain object, which raises
`TypeError` unconditionally; no signing happens and nothing is enqueued,
for signed and unsigned events alike (`send_event` builds an `Event` and
delegates to `push_event`, so it raises identically). -/
theorem claim8_push_event_raises (evnt : Event) (k : SchnorrKey) :
    push_event evnt k = .error .typeError := by
  simp [push_event, Event.pyContains, bind, Except.bind]

/-- The subscription filter (`pynostr/filter.py`, `Filter.__init__`
defaults: empty allow-lists, no timestamps, `limit = 10`).  Only `limit`
participates in the dedup behavior under verification. -/
structure Filter where
  ids : List String
  authors : List String
  kinds : List Int
  since : Option Int
  until' : Option Int
  limit : Nat

/-- A bounded deque of recently seen event ids (`collections.deque` with
`maxlen`), newest id first. -/
structure Window where
  maxlen : Nat
  trace : List String

/-- The dedup state `subscribe` creates:
`self.__trace = deque(maxlen=self.__filter.limit)`, an empty deque bounded
to the filter's limit. -/
def subscribeTrace (f : Filter) : Window :=
  ⟨f.limit, []⟩

/-- Inbound frames as seen by `BaseThread.apply`: an
`["EVENT", sub_id, evnt]` frame is represented by its event's `id` (the
only event field the dedup logic reads; the remaining fields only feed the
terminal rendering), any other frame is forwarded verbatim. -/
inductive Frame where
  | event (id : String)
  | other (raw : String)

/-- Translation of the dedup gate of `BaseThread.apply` (lines 216-222):
for an `EVENT` frame, return early (no callback) when the id is already in
the trace, otherwise `appendleft` the id — dropping the oldest entry when
the deque is full — and forward to the application callback; any other
frame is forwarded as is.  The returned flag says whether the callback was
invoked. -/
def applyFrame (w : Window) : Frame → Window × Bool
  | .event i =>
    if i ∈ w.trace then (w, false)
    else (⟨w.maxlen, (i :: w.trace).take w.maxlen⟩, true)
  | .other _ => (w, true)

/-- Fold of `apply` over a delivery sequence, counting callback
invocations. -/
def runFrames (w : Window) : List Frame → Window × Nat
  | [] => (w, 0)
  | f :: rest =>
    let wb := applyFrame w f
    let wn := runFrames wb.1 rest
    (wn.1, (if wb.2 then 1 else 0) + wn.2)

/-- Event frames of a list of ids. -/
def evFrames (ids : List String) : List Frame :=
  ids.map Frame.event

end Pynostr

namespace Pynostr

/-! ## Dedup-window lemmas -/

/-- Taking `n` absorbs an inner `take n` after an append. -/
theorem take_append_take {α : Type} (n : Nat) (a b : List α) :
    (a ++ b.take n).take n = (a ++ b).take n := by
  rw [List.take_append_eq_append_take, List.take_append_eq_append_take,
    List.take_take]
  congr 1
  rw [Nat.min_eq_left (Nat.sub_le n a.length)]

/-- Membership of the pivot in a bounded prefix: with `d` not among the
newer entries `l1`, the trace window of size `n` still holds `d` exactly
when fewer than `n` newer entries were recorded. -/
theorem mem_take_middle (n : Nat) (l1 l2 : List String) (d : String)
    (hd : d ∉ l1) : d ∈ (l1 ++ d :: l2).take n ↔ l1.length < n := by
  rw [List.take_append_eq_append_take]
  constructor
  · intro h
    rcases List.mem_append.mp h with h1 | h2
    · exact absurd (List.take_subset _ _ h1) hd
    · by_contra hn
      push_neg at hn
      rw [Nat.sub_eq_zero_of_le hn] at h2
      simp at h2
  · intro hlt
    refine List.mem_append.mpr (.inr ?_)
    have he : n - l1.length = (n - l1.length - 1) + 1 := by omega
    rw [he, List.take_succ_cons]
    exact List.mem_cons_self d _

/-- Processing a run of pairwise distinct, not-yet-seen ids forwards every
one of them and leaves the window holding the `maxlen` most recent. -/
theorem runFresh : (ids : List String) → (n : Nat) → (t : List String) →
    ids.Nodup → (∀ i ∈ ids, i ∉ t) → t.length ≤ n →
    runFrames ⟨n, t⟩ (evFrames ids)
      = (⟨n, (ids.reverse ++ t).take n⟩, ids.length)
  | [], n, t, _, _, hlen => by
    simp [runFrames, evFrames, List.take_of_length_le hlen]
  | i :: ids, n, t, hnd, hfresh, hlen => by
    have hit : i ∉ t := hfresh i (List.mem_cons_self i ids)
    have hndc := List.nodup_cons.mp hnd
    have hrec := runFresh ids n ((i :: t).take n) hndc.2
      (by
        intro j hj hmem
        have hjit : j ∈ i :: t := List.take_subset _ _ hmem
        rcases List.mem_cons.mp hjit with rfl | hjt
        · exact hndc.1 hj
        · exact hfresh j (List.mem_cons_of_mem i hj) hjt)
      (by
        have := List.length_take n (i :: t)
        omega)
    simp only [evFrames, List.map_cons, runFrames, applyFrame, hit,
      if_neg, ite_false]
    rw [show evFrames ids = ids.map Frame.event from rfl] at hrec
    have htr : List.take n (ids.reverse ++ List.take n (i :: t))
        = List.take n ((i :: ids).reverse ++ t) := by
      rw [show (i :: t) = [i] ++ t from rfl, take_append_take,
        List.reverse_cons, List.append_assoc]
    rw [hrec, htr]
    simp [Nat.add_comm]

/-- The callback count over a concatenation splits into the two runs. -/
theorem runFrames_append (w : Window) (xs ys : List Frame) :
    runFrames w (xs ++ ys)
      = ((runFrames (runFrames w xs).1 ys).1,
         (runFrames w xs).2 + (runFrames (runFrames w xs).1 ys).2) := by
  induction xs generalizing w with
  | nil => simp [runFrames]
  | cons f fs ih =>
    simp only [List.cons_append, List.append_eq, runFrames, ih]
    rw [Nat.add_assoc]

/-- Delivery count for a sequence that repeats exactly one id `d`: every
distinct frame is forwarded once, and the second occurrence of `d` is
suppressed exactly when fewer than `n` distinct ids were recorded since its
first occurrence (`bs` between the two occurrences), i.e. is forwarded
again once `n` or more newer ids pushed it out of the bounded deque. -/
theorem runFrames_dup (n : Nat) (as bs cs : List String) (d : String)
    (h : (as ++ d :: bs ++ cs).Nodup) :
    (runFrames ⟨n, []⟩ (evFrames (as ++ d :: bs ++ d :: cs))).2
      = as.length + bs.length + cs.length
        + (if bs.length < n then 1 else 2) := by
  obtain ⟨hAdB, hCs, hDisjC⟩ := List.nodup_append.mp h
  obtain ⟨hAs, hDbs, hDisjA⟩ := List.nodup_append.mp hAdB
  obtain ⟨hdBs, hBs⟩ := List.nodup_cons.mp hDbs
  have hdAs : d ∉ as := fun hm => hDisjA hm (List.mem_cons_self _ _)
  have hdCs : d ∉ cs := fun hm =>
    hDisjC (List.mem_append.mpr (.inr (List.mem_cons_self _ _))) hm
  have hBsAs : ∀ b ∈ bs, b ∉ as := fun b hb ha =>
    hDisjA ha (List.mem_cons_of_mem _ hb)
  have hCsAs : ∀ c ∈ cs, c ∉ as := fun c hc ha =>
    hDisjC (List.mem_append.mpr (.inl ha)) hc
  have hCsBs : ∀ c ∈ cs, c ∉ bs := fun c hc hb =>
    hDisjC (List.mem_append.mpr (.inr (List.mem_cons_of_mem _ hb))) hc
  -- the first run: `as`, then the first `d`, then `bs`, all fresh
  have hnd1 : ((as ++ [d]) ++ bs).Nodup := by
    rw [List.nodup_append, List.nodup_append]
    refine ⟨⟨hAs, List.nodup_singleton d, ?_⟩, hBs, ?_⟩
    · intro a ha had
      rw [List.mem_singleton] at had
      exact hdAs (had ▸ ha)
    · intro a ha hab
      rcases List.mem_append.mp ha with haa | had
      · exact hBsAs a hab haa
      · rw [List.mem_singleton] at had
        exact hdBs (had ▸ hab)
  have hsplit : as ++ d :: bs ++ d :: cs = ((as ++ [d]) ++ bs) ++ (d :: cs) := by
    simp
  have hmaps : evFrames (((as ++ [d]) ++ bs) ++ (d :: cs))
      = evFrames ((as ++ [d]) ++ bs) ++ (Frame.event d :: evFrames cs) := by
    rw [evFrames, List.map_append]
    rfl
  rw [hsplit, hmaps, runFrames_append]
  have hrun1 : runFrames ⟨n, []⟩ (evFrames ((as ++ [d]) ++ bs))
      = (⟨n, (bs.reverse ++ d :: as.reverse).take n⟩,
         as.length + 1 + bs.length) := by
    rw [runFresh _ n [] hnd1 (by simp) (by simp)]
    simp [List.reverse_append]
    omega
  rw [hrun1]
  have hmem : d ∈ (bs.reverse ++ d :: as.reverse).take n ↔ bs.length < n := by
    have := mem_take_middle n bs.reverse as.reverse d (by simpa using hdBs)
    simpa using this
  have hlen1 : ((bs.reverse ++ d :: as.reverse).take n).length ≤ n := by
    have := List.length_take n (bs.reverse ++ d :: as.reverse)
    omega
  have hfreshCs : ∀ c ∈ cs, c ∉ (bs.reverse ++ d :: as.reverse).take n := by
    intro c hc hmemc
    have hcl : c ∈ bs.reverse ++ d :: as.reverse := List.take_subset _ _ hmemc
    rcases List.mem_append.mp hcl with hcb | hcd
    · exact hCsBs c hc (List.mem_reverse.mp hcb)
    · rcases List.mem_cons.mp hcd with rfl | hca
      · exact hdCs hc
      · exact hCsAs c hc (List.mem_reverse.mp hca)
  have hcs := runFresh cs n ((bs.reverse ++ d :: as.reverse).take n)
    hCs hfreshCs hlen1
  by_cases hbn : bs.length < n
  · have hdin : d ∈ (bs.reverse ++ d :: as.reverse).take n := hmem.mpr hbn
    have hrun2 : (runFrames ⟨n, (bs.reverse ++ d :: as.reverse).take n⟩
        (Frame.event d :: evFrames cs)).2 = cs.length := by
      simp only [runFrames, applyFrame, hdin, ite_true, if_pos]
      rw [hcs]
      simp
    rw [hrun2, if_pos hbn]
    omega
  · have hdout : d ∉ (bs.reverse ++ d :: as.reverse).take n :=
      fun hm => hbn (hmem.mp hm)
    have hlen2 : ((d :: (bs.reverse ++ d :: as.reverse).take n).take n).length
        ≤ n := by
      have := List.length_take n (d :: (bs.reverse ++ d :: as.reverse).take n)
      omega
    have hfresh2 : ∀ c ∈ cs,
        c ∉ (d :: (bs.reverse ++ d :: as.reverse).take n).take n := by
      intro c hc hmemc
      have hct := List.take_subset _ _ hmemc
      rcases List.mem_cons.mp hct with rfl | hct2
      · exact hdCs hc
      · exact hfreshCs c hc hct2
    have hcs2 := runFresh cs n
      ((d :: (bs.reverse ++ d :: as.reverse).take n).take n) hCs hfresh2 hlen2
    have hrun2 : (runFrames ⟨n, (bs.reverse ++ d :: as.reverse).take n⟩
        (Frame.event d :: evFrames cs)).2 = 1 + cs.length := by
      simp only [runFrames, applyFrame, hdout, ite_false, if_neg]
      rw [hcs2]
      simp
    rw [hrun2, if_neg hbn]
    omega

end Pynostr

namespace Pynostr

/-- The filter of the spec's concrete subscription scenario:
`{kinds: [1], limit: 5}`. -/
def filterFive : Filter :=
  { ids := [], authors := [], kinds := [1], since := none, until' := none,
    limit := 5 }

/-- A filter with `limit = 2`, exercising the dedup window bound. -/
def filterTwo : Filter :=
  { ids := [], authors := [], kinds := [], since := none, until' := none,
    limit := 2 }

/-- Counterexample to claim C9 as stated.  Seven `EVENT` frames of which
exactly the first and the last share an id, all others distinct, under the
limit-5 filter: when the duplicate arrives, five newer distinct ids have
been recorded, the bounded deque has evicted the first occurrence, and the
callback fires 7 times, not 6. -/
theorem claim9_counterexample :
    (runFrames (subscribeTrace filterFive)
      (evFrames ["d0", "u1", "u2", "u3", "u4", "u5", "d0"])).2 ≠ 6 := by
  decide

/-- Claim C9 as amended.  Under the limit-5 filter, over 7 `EVENT` frames
of which exactly two share an id (at distance `bs.length + 1`, all other
ids distinct), the callback is invoked exactly 6 times when the duplicate
re-arrives while its first occurrence is still within the 5-entry dedup
window (`bs.length < 5`), and 7 times otherwise. -/
theorem claim9_seven_frames (as bs cs : List String) (d : String)
    (h : (as ++ d :: bs ++ cs).Nodup)
    (hlen : as.length + bs.length + cs.length = 5) :
    (runFrames (subscribeTrace filterFive)
        (evFrames (as ++ d :: bs ++ d :: cs))).2
      = if bs.length < 5 then 6 else 7 := by
  have hrw : subscribeTrace filterFive = (⟨5, []⟩ : Window) := rfl
  rw [hrw, runFrames_dup 5 as bs cs d h]
  by_cases hbn : bs.length < 5
  · rw [if_pos hbn, if_pos hbn]; omega
  · rw [if_neg hbn, if_neg hbn]; omega

/-- Instantiation of amended claim C9: duplicate at distance 3, within the
window, 6 callback invocations for the 7 frames. -/
theorem claim9_witness :
    (runFrames (subscribeTrace filterFive)
      (evFrames ["d0", "u1", "u2", "d0", "u3", "u4", "u5"])).2 = 6 := by
  have h := claim9_seven_frames [] ["u1", "u2"] ["u3", "u4", "u5"] "d0"
    (by decide) (by decide)
  simpa using h

/-- Claim C10.  The dedup window is the deque `subscribe` bounds to the
filter's `limit`: over a delivery sequence repeating exactly one id `d`
(with `bs` the distinct ids recorded between the two occurrences), the
duplicate is suppressed exactly when fewer than `limit` newer distinct ids
were recorded — it is forwarded to the callback a second time precisely
when `limit` or more newer distinct ids evicted it. -/
theorem claim10_window_eviction (f : Filter) (as bs cs : List String)
    (d : String) (h : (as ++ d :: bs ++ cs).Nodup) :
    (runFrames (subscribeTrace f) (evFrames (as ++ d :: bs ++ d :: cs))).2
      = as.length + bs.length + cs.length
        + (if bs.length < f.limit then 1 else 2) :=
  runFrames_dup f.limit as bs cs d h

/-- Instantiation of claim C10 at window 2: a duplicate separated by two
newer distinct ids is delivered twice (4 callbacks for 4 frames), while
`claim9_witness` above shows the in-window duplicate being suppressed. -/
theorem claim10_witness :
    (runFrames (subscribeTrace filterTwo)
      (evFrames ["d0", "b1", "b2", "d0"])).2 = 4 := by
  have h := claim10_window_eviction filterTwo [] ["b1", "b2"] [] "d0"
    (by decide)
  simpa using h

end Pynostr

namespace Pynostr

/-! ## Bech32 codec (`pynostr/__init__.py`, `to_bech32` / `from_bech32`)

The `pynostr.bech32` helper module these functions import is part of the
repository but is not among the provided sources, so its pieces are
modelled from the spec (section 4.1): `convertbits` regroups the byte
sequence "from 8-bit to 5-bit groups (most-significant-bit first,
zero-padded at the end)" and back; `bech32_encode` maps each 5-bit group
through the fixed 32-character alphabet and appends a 6-symbol checksum
computed by the polynomial-modulus function seeded with the prefix,
concatenating `prefix + "1" + data + checksum`; `bech32_decode` reverses
this — splitting at the last `"1"`, rejecting mixed case or a foreign
character — and independently verifies the checksum before accepting,
here by recomputing the expected checksum and comparing. -/

/-- Bits of a value, most significant first, on `m` bits. -/
def bitsVal : Nat → Nat → List Bool
  | 0, _ => []
  | m + 1, v => v.testBit m :: bitsVal m v

/-- Value of a bit string, most significant first. -/
def valBits : List Bool → Nat
  | [] => 0
  | b :: bs => (if b then 1 else 0) * 2 ^ bs.length + valBits bs

/-- Regroup a bit stream into 5-bit values, zero-padding the final group
on the right (the `pad=True` behaviour of `convertbits`). -/
def toBase5 : List Bool → List Nat
  | b1 :: b2 :: b3 :: b4 :: b5 :: rest =>
    valBits [b1, b2, b3, b4, b5] :: toBase5 rest
  | [] => []
  | bits => [valBits (bits ++ List.replicate (5 - bits.length) false)]

/-- Regroup a bit stream into 8-bit values, zero-padding the final group
on the right. -/
def toBase8 : List Bool → List Nat
  | b1 :: b2 :: b3 :: b4 :: b5 :: b6 :: b7 :: b8 :: rest =>
    valBits [b1, b2, b3, b4, b5, b6, b7, b8] :: toBase8 rest
  | [] => []
  | bits => [valBits (bits ++ List.replicate (8 - bits.length) false)]

/-- Modelled from the spec: `bech32.convertbits(data, 8, 5)` of the
missing `bech32` module — 8-bit values to 5-bit groups, MSB first,
zero-padded at the end. -/
def convertbits85 (bytes : List Nat) : List Nat :=
  toBase5 ((bytes.map (bitsVal 8)).flatten)

/-- Modelled from the spec: `bech32.convertbits(data, 5, 8)` — 5-bit
groups back to 8-bit values, MSB first, zero-padded at the end. -/
def convertbits58 (groups : List Nat) : List Nat :=
  toBase8 ((groups.map (bitsVal 5)).flatten)

/-- The fixed 32-character bech32 alphabet. -/
def bech32Charset : List Char := "qpzry9x8gf2tvdw0s3jn54khce6mua7l".data

/-- Modelled from the spec: the polynomial-modulus function of the missing
`bech32` module (the BIP-173 BCH checksum fold). -/
def bech32Polymod (values : List Nat) : Nat :=
  values.foldl
    (fun chk v =>
      let b := chk >>> 25
      let chk2 := ((chk &&& 0x1ffffff) <<< 5) ^^^ v
      let gens := [0x3b6a57b2, 0x26508e6b, 0x1ea119fa, 0x3d4233dd, 0x2a1462b3]
      (List.range 5).foldl
        (fun c i => if (b >>> i) &&& 1 = 1 then c ^^^ gens.getD i 0 else c)
        chk2)
    1

/-- Checksum seeding with the human-readable prefix (`bech32_hrp_expand`). -/
def bech32HrpExpand (hrp : String) : List Nat :=
  hrp.data.map (fun c => c.toNat >>> 5) ++ [0]
    ++ hrp.data.map (fun c => c.toNat &&& 31)

/-- The 6-symbol checksum appended by the encoder. -/
def bech32CreateChecksum (hrp : String) (data : List Nat) : List Nat :=
  let values := bech32HrpExpand hrp ++ data
  let pm := bech32Polymod (values ++ [0, 0, 0, 0, 0, 0]) ^^^ 1
  (List.range 6).map fun i => (pm >>> (5 * (5 - i))) &&& 31

/-- Modelled from the spec: `bech32.bech32_encode` of the missing module —
`prefix + "1" + data + checksum`, each 5-bit group through the alphabet. -/
def bech32_encode (hrp : String) (data : List Nat) : String :=
  hrp ++ "1"
    ++ ⟨(data ++ bech32CreateChecksum hrp data).map fun v =>
          bech32Charset.getD v 'q'⟩

/-- Position of a character in the bech32 alphabet, `none` for a foreign
character (charset violation). -/
def bech32CharVal (c : Char) : Option Nat :=
  let i := bech32Charset.indexOf c
  if i < 32 then some i else none

/-- Alphabet positions of a whole data part, `none` on the first foreign
character. -/
def bech32CharVals : List Char → Option (List Nat)
  | [] => some []
  | c :: rest => do
    let v ← bech32CharVal c
    let vs ← bech32CharVals rest
    pure (v :: vs)

/-- Split at the last `'1'` of the string (`str.rfind("1")`), returning
the parts before and after it. -/
def splitLastOne : List Char → Option (List Char × List Char)
  | [] => none
  | c :: rest =>
    match splitLastOne rest with
    | some (pre, post) => some (c :: pre, post)
    | none => if c = '1' then some ([], rest) else none

/-- An ASCII uppercase letter. -/
def isUpperAlpha (c : Char) : Bool :=
  65 ≤ c.toNat && c.toNat ≤ 90

/-- An ASCII lowercase letter. -/
def isLowerAlpha (c : Char) : Bool :=
  97 ≤ c.toNat && c.toNat ≤ 122

/-- ASCII lowercasing of one character. -/
def toLowerAscii (c : Char) : Char :=
  if isUpperAlpha c then Char.ofNat (c.toNat + 32) else c

/-- Modelled from the spec: `bech32.bech32_decode` of the missing module —
reject mixed case, lowercase, split at the last `"1"`, reject an empty
prefix or a data part shorter than the checksum or holding a foreign
character, and accept only if the checksum verifies (recomputed and
compared). -/
def bech32_decode (s : String) : Option (String × List Nat) :=
  if s.data.any isUpperAlpha ∧ s.data.any isLowerAlpha then none
  else
    match splitLastOne (s.data.map toLowerAscii) with
    | none => none
    | some (hrpChars, dataChars) =>
      if hrpChars = [] then none
      else
        match bech32CharVals dataChars with
        | none => none
        | some vals =>
          if vals.length < 6 then none
          else
            let dataPart := vals.take (vals.length - 6)
            let cksum := vals.drop (vals.length - 6)
            if cksum = bech32CreateChecksum ⟨hrpChars⟩ dataPart then
              some (⟨hrpChars⟩, dataPart)
            else none

/-- Translation of `to_bech32`:
`bech32.bech32_encode(prefix, bech32.convertbits(bytes.fromhex(hexa), 8, 5))`;
`none` renders the `ValueError` of `bytes.fromhex` on a malformed hex
string. -/
def to_bech32 (hrp : String) (hexa : String) : Option String := do
  let bytes ← bytesFromHex hexa
  pure (bech32_encode hrp (convertbits85 bytes))

/-- Translation of `from_bech32`: decode, then
`bytearray(bech32.convertbits(data, 5, 8))[:-1].hex()` — the final byte is
dropped unconditionally; raise `Bech32DecodeError` when decoding fails. -/
def from_bech32 (b32 : String) : Except PyErr String :=
  match bech32_decode b32 with
  | some (_, data) => .ok (hexOfBytes (convertbits58 data).dropLast)
  | none => .error .bech32Decode

end Pynostr

namespace Pynostr

/-! ## Bit-regrouping lemmas for the bech32 round trip -/

/-- A bit rendering has the requested width. -/
theorem length_bitsVal : ∀ m v, (bitsVal m v).length = m
  | 0, _ => rfl
  | m + 1, v => by simp [bitsVal, length_bitsVal m v]

/-- A bit string's value is below `2 ^ width`. -/
theorem valBits_lt : ∀ bs : List Bool, valBits bs < 2 ^ bs.length
  | [] => by simp [valBits]
  | b :: bs => by
    have h := valBits_lt bs
    simp only [valBits, List.length_cons, pow_succ]
    cases b <;> simp <;> omega

/-- Reading the bits of a value recovers the value modulo `2 ^ width`. -/
theorem valBits_bitsVal : ∀ m v, valBits (bitsVal m v) = v % 2 ^ m
  | 0, v => by simp [bitsVal, valBits]; omega
  | m + 1, v => by
    have ih := valBits_bitsVal m v
    simp only [bitsVal, valBits, length_bitsVal, ih]
    have htb : v.testBit m = decide (v / 2 ^ m % 2 = 1) :=
      Nat.testBit_to_div_mod
    have hP : 0 < 2 ^ m := Nat.pos_pow_of_pos m (by omega)
    have hsplit : v % 2 ^ (m + 1) = v / 2 ^ m % 2 * 2 ^ m + v % 2 ^ m := by
      conv_lhs => rw [Nat.pow_succ]
      rw [Nat.mod_mul]
      ring
    rw [htb, hsplit]
    rcases Nat.mod_two_eq_zero_or_one (v / 2 ^ m) with h2 | h2 <;>
      simp [h2]

/-- Bit renderings agree whenever the low bits agree. -/
theorem bitsVal_congr : ∀ m {v w : Nat},
    (∀ i, i < m → v.testBit i = w.testBit i) → bitsVal m v = bitsVal m w
  | 0, _, _, _ => rfl
  | m + 1, v, w, h => by
    simp only [bitsVal]
    rw [h m (by omega), bitsVal_congr m fun i hi => h i (by omega)]

/-- Only the low `m` bits matter to a width-`m` rendering. -/
theorem bitsVal_mod (m v : Nat) : bitsVal m (v % 2 ^ m) = bitsVal m v :=
  bitsVal_congr m fun i hi => by
    rw [Nat.testBit_mod_two_pow]
    simp [hi]

/-- Rendering the value of a bit string recovers the bit string. -/
theorem bitsVal_valBits : ∀ bs : List Bool, bitsVal bs.length (valBits bs) = bs
  | [] => rfl
  | b :: bs => by
    have hlt := valBits_lt bs
    have hP : 0 < 2 ^ bs.length := Nat.pos_pow_of_pos _ (by omega)
    simp only [List.length_cons, bitsVal, valBits]
    have hhead : ((if b = true then 1 else 0) * 2 ^ bs.length + valBits bs).testBit
        bs.length = b := by
      rw [Nat.testBit_to_div_mod]
      have hdiv : ((if b = true then 1 else 0) * 2 ^ bs.length + valBits bs)
          / 2 ^ bs.length = (if b = true then 1 else 0) := by
        rw [Nat.mul_comm, Nat.mul_add_div hP, Nat.div_eq_of_lt hlt]
        omega
      rw [hdiv]
      cases b <;> simp
    have htail : bitsVal bs.length
        ((if b = true then 1 else 0) * 2 ^ bs.length + valBits bs) = bs := by
      rw [← bitsVal_mod bs.length]
      have hmod : ((if b = true then 1 else 0) * 2 ^ bs.length + valBits bs)
          % 2 ^ bs.length = valBits bs := by
        rw [Nat.mul_comm, Nat.mul_add_mod, Nat.mod_eq_of_lt hlt]
      rw [hmod]
      exact bitsVal_valBits bs
    rw [hhead, htail]

end Pynostr

namespace Pynostr

/-- Width-5 special case of `bitsVal_valBits`. -/
theorem bits5_val5 (l : List Bool) (h : l.length = 5) :
    bitsVal 5 (valBits l) = l := h ▸ bitsVal_valBits l

/-- The 8-bit stream of a byte list has eight bits per byte. -/
theorem length_bits8 : ∀ bs : List Nat,
    ((bs.map (bitsVal 8)).flatten).length = 8 * bs.length
  | [] => by simp
  | b :: bs => by
    simp [length_bits8 bs, length_bitsVal]
    omega

/-- `toBase8` consumes one full byte rendering at a time. -/
theorem toBase8_byte (v : Nat) (rest : List Bool) :
    toBase8 (bitsVal 8 v ++ rest) = v % 256 :: toBase8 rest := by
  have h := valBits_bitsVal 8 v
  simp only [bitsVal] at h
  simp only [bitsVal, List.cons_append, List.nil_append, toBase8]
  rw [h]
  rfl

/-- Regrouping the 8-bit stream of in-range bytes, with a trailing


stream, recovers the bytes in front. -/
theorem bytes_toBase8 : ∀ (data : List Nat) (extra : List Bool),
    (∀ v ∈ data, v < 256) →
    toBase8 ((data.map (bitsVal 8)).flatten ++ extra) = data ++ toBase8 extra
  | [], _, _ => by simp
  | v :: data, extra, h => by
    simp only [List.map_cons, List.flatten_cons, List.append_assoc]
    rw [toBase8_byte, bytes_toBase8 data extra fun x hx => h x (by simp [hx]),
      Nat.mod_eq_of_lt (h v (by simp))]
    rfl

/-- Reading back the 5-bit groups of a bit stream yields the stream,
zero-padded at the end to the next multiple of five. -/
theorem flat5_toBase5 : ∀ B : List Bool,
    ((toBase5 B).map (bitsVal 5)).flatten
      = B ++ List.replicate ((5 - B.length % 5) % 5) false
  | [] => by simp [toBase5]
  | [b1] => by
    simp [toBase5, bits5_val5]
  | [b1, b2] => by
    simp [toBase5, bits5_val5]
  | [b1, b2, b3] => by
    simp [toBase5, bits5_val5]
  | [b1, b2, b3, b4] => by
    simp [toBase5, bits5_val5]
  | b1 :: b2 :: b3 :: b4 :: b5 :: rest => by
    simp only [toBase5, List.map_cons, List.flatten_cons]
    rw [bits5_val5 _ (by rfl), flat5_toBase5 rest]
    have hcnt : (5 - (b1 :: b2 :: b3 :: b4 :: b5 :: rest).length % 5) % 5
        = (5 - rest.length % 5) % 5 := by
      simp only [List.length_cons]
      omega
    simp [hcnt]
    omega

/-- Every 5-bit group value is below 32. -/
theorem toBase5_lt : ∀ B : List Bool, ∀ v ∈ toBase5 B, v < 32
  | [], _, h => by simp [toBase5] at h
  | [b1], v, h => by
    simp [toBase5] at h
    subst h
    exact valBits_lt _
  | [b1, b2], v, h => by
    simp [toBase5] at h
    subst h
    exact valBits_lt _
  | [b1, b2, b3], v, h => by
    simp [toBase5] at h
    subst h
    exact valBits_lt _
  | [b1, b2, b3, b4], v, h => by
    simp [toBase5] at h
    subst h
    exact valBits_lt _
  | b1 :: b2 :: b3 :: b4 :: b5 :: rest, v, h => by
    simp only [toBase5, List.mem_cons] at h
    rcases h with rfl | h
    · exact valBits_lt _
    · exact toBase5_lt rest v h

/-- The full `convertbits` round trip: for a byte count that is not a
multiple of five, decoding appends exactly one padding byte, which is
zero. -/
theorem convert_roundtrip (bs : List Nat) (hb : ∀ b ∈ bs, b < 256)
    (hmod : bs.length % 5 ≠ 0) :
    convertbits58 (convertbits85 bs) = bs ++ [0] := by
  unfold convertbits85 convertbits58
  rw [flat5_toBase5]
  rw [bytes_toBase8 bs _ hb]
  have hlen := length_bits8 bs
  rw [hlen]
  have hp : 1 ≤ (5 - 8 * bs.length % 5) % 5 ∧ (5 - 8 * bs.length % 5) % 5 ≤ 4 := by
    omega
  obtain ⟨hp1, hp4⟩ := hp
  interval_cases h : (5 - 8 * bs.length % 5) % 5 <;> rfl

end Pynostr

namespace Pynostr

/-! ## Bech32 layer lemmas and claim C4 -/

/-- Hex digits round-trip. -/
theorem hexDigit_roundtrip : ∀ x < 16, hexDigitVal (hexDigitChar x) = some x := by
  decide

/-- Parsing the hex rendering of a byte sequence recovers it. -/
theorem bytesFromHex_hexOfBytes : ∀ bs : List Nat, (∀ b ∈ bs, b < 256) →
    bytesFromHex (hexOfBytes bs) = some bs
  | [], _ => rfl
  | b :: bs, h => by
    have hb := h b (by simp)
    have h1 := hexDigit_roundtrip (b / 16 % 16) (by omega)
    have h2 := hexDigit_roundtrip (b % 16) (by omega)
    have ih := bytesFromHex_hexOfBytes bs fun x hx => h x (by simp [hx])
    show bytesFromHexAux (hexByte b ++ (bs.map hexByte).flatten) = _
    simp only [hexByte, List.cons_append, List.append_eq, List.nil_append,
      bytesFromHexAux, h1, h2]
    rw [show bytesFromHexAux (bs.map hexByte).flatten = some bs from ih]
    have hbv : b / 16 % 16 * 16 + b % 16 = b := by omega
    simp [hbv]

/-- The separator is not in the alphabet. -/
theorem charNoOne : ('1' : Char) ∉ bech32Charset := by decide

/-- Alphabet characters are not uppercase. -/
theorem charsetNotUpper : ∀ c ∈ bech32Charset, isUpperAlpha c = false := by
  decide

/-- Alphabet positions invert the alphabet lookup. -/
theorem charVal_getD : ∀ v < 32,
    bech32CharVal (bech32Charset.getD v 'q') = some v := by decide

/-- Alphabet lookups land in the alphabet. -/
theorem getD_mem_charset : ∀ v < 32,
    bech32Charset.getD v 'q' ∈ bech32Charset := by decide

/-- Reading back a mapped data part recovers the group values. -/
theorem charVals_map : ∀ vs : List Nat, (∀ v ∈ vs, v < 32) →
    bech32CharVals (vs.map fun v => bech32Charset.getD v 'q') = some vs
  | [], _ => rfl
  | v :: vs, h => by
    simp only [List.map_cons, bech32CharVals,
      charVal_getD v (h v (by simp)),
      charVals_map vs fun x hx => h x (by simp [hx])]
    rfl

/-- Without a separator there is nothing to split. -/
theorem splitLastOne_none : ∀ l : List Char, ('1' : Char) ∉ l →
    splitLastOne l = none
  | [], _ => rfl
  | c :: rest, h => by
    have hc : c ≠ '1' := fun hc => h (hc ▸ List.mem_cons_self c rest)
    simp [splitLastOne, splitLastOne_none rest fun hm =>
      h (List.mem_cons_of_mem c hm), hc]

/-- Splitting at the last separator, when the tail holds none. -/
theorem splitLastOne_append : ∀ (pre post : List Char), ('1' : Char) ∉ post →
    splitLastOne (pre ++ '1' :: post) = some (pre, post)
  | [], post, h => by
    simp [splitLastOne, splitLastOne_none post h]
  | c :: pre, post, h => by
    simp [splitLastOne, splitLastOne_append pre post h]

/-- Checksum symbols are 5-bit values. -/
theorem checksum_lt (hrp : String) (data : List Nat) :
    ∀ v ∈ bech32CreateChecksum hrp data, v < 32 := by
  intro v hv
  simp only [bech32CreateChecksum, List.mem_map] at hv
  obtain ⟨i, _, rfl⟩ := hv
  have h31 := Nat.and_le_right
    (n := (bech32Polymod ((bech32HrpExpand hrp ++ data) ++ [0, 0, 0, 0, 0, 0])
      ^^^ 1) >>> (5 * (5 - i))) (m := 31)
  omega

/-- Decoding inverts encoding for a lowercase prefix free of `'1'` and
in-range group values. -/
theorem bech32_decode_encode (hrp : String) (data : List Nat)
    (hne : hrp.data ≠ []) (h1 : ('1' : Char) ∉ hrp.data)
    (hlow : ∀ c ∈ hrp.data, isUpperAlpha c = false)
    (hdata : ∀ v ∈ data, v < 32) :
    bech32_decode (bech32_encode hrp data) = some (hrp, data) := by
  have hvlt : ∀ v ∈ data ++ bech32CreateChecksum hrp data, v < 32 := by
    intro v hv
    rcases List.mem_append.mp hv with h | h
    · exact hdata v h
    · exact checksum_lt hrp data v h
  have hmchar : ∀ c ∈ (data ++ bech32CreateChecksum hrp data).map
      (fun v => bech32Charset.getD v 'q'), c ∈ bech32Charset := by
    intro c hc
    obtain ⟨v, hv, rfl⟩ := List.mem_map.mp hc
    exact getD_mem_charset v (hvlt v hv)
  have hEdata : (bech32_encode hrp data).data
      = hrp.data ++ '1' :: (data ++ bech32CreateChecksum hrp data).map
          (fun v => bech32Charset.getD v 'q') := by
    simp [bech32_encode, String.data_append]
  have hnup : ∀ c ∈ hrp.data ++ '1' :: (data ++
      bech32CreateChecksum hrp data).map (fun v => bech32Charset.getD v 'q'),
      isUpperAlpha c = false := by
    intro c hc
    rcases List.mem_append.mp hc with h | h
    · exact hlow c h
    · rcases List.mem_cons.mp h with rfl | h
      · decide
      · exact charsetNotUpper c (hmchar c h)
  unfold bech32_decode
  rw [hEdata]
  rw [if_neg (by
    intro hcon
    obtain ⟨c, hc1, hc2⟩ := List.any_eq_true.mp hcon.1
    rw [hnup c hc1] at hc2
    exact Bool.false_ne_true hc2)]
  have hmapid : (hrp.data ++ '1' :: (data ++
      bech32CreateChecksum hrp data).map (fun v => bech32Charset.getD v 'q')).map
        toLowerAscii
      = hrp.data ++ '1' :: (data ++ bech32CreateChecksum hrp data).map
          (fun v => bech32Charset.getD v 'q') := by
    rw [List.map_congr_left fun c hc => show toLowerAscii c = id c from by
      unfold toLowerAscii
      rw [if_neg (by rw [hnup c hc]; exact Bool.false_ne_true)]
      rfl]
    exact List.map_id _
  rw [hmapid,
    splitLastOne_append hrp.data _ fun hm => charNoOne (hmchar '1' hm)]
  dsimp only
  rw [if_neg hne, charVals_map _ hvlt]
  dsimp only
  have hcklen : (bech32CreateChecksum hrp data).length = 6 := by
    simp [bech32CreateChecksum]
  have hlen : (data ++ bech32CreateChecksum hrp data).length
      = data.length + 6 := by
    simp [hcklen]
  rw [if_neg (by omega)]
  have hdl : (data ++ bech32CreateChecksum hrp data).length - 6
      = data.length := by omega
  rw [hdl]
  have htake : (data ++ bech32CreateChecksum hrp data).take data.length
      = data := List.take_left data _
  have hdrop : (data ++ bech32CreateChecksum hrp data).drop data.length
      = bech32CreateChecksum hrp data := List.drop_left data _
  rw [htake, hdrop, if_pos rfl]

end Pynostr

namespace Pynostr

set_option maxRecDepth 4000 in
/-- Counterexample to claim C4 as stated.  For a 5-byte sequence (a length
that is a multiple of five) the 5-bit regrouping needs no padding group,
yet `from_bech32` unconditionally strips the final byte, so the round trip
loses the last data byte: decoding the encoding of `0001020304` returns
`00010203`. -/
theorem claim4_counterexample :
    to_bech32 "npub" "0001020304" = some "npub1qqqsyqcy9pzycs" ∧
      from_bech32 "npub1qqqsyqcy9pzycs" = .ok "00010203" ∧
      "00010203" ≠ "0001020304" := by
  refine ⟨by decide, by decide, by decide⟩

/-- Claim C4 as amended.  For every byte sequence of length 1 to 512 whose
length is NOT a multiple of five, and each of the three prefixes `npub`,
`nsec`, `note`, the round trip is exact: encoding appends one zero padding
byte on decode, which the trailing strip of `from_bech32` removes, and the
original hex string is returned.  (For lengths that are multiples of five
no padding byte exists and the strip removes a data byte, see the
counterexample.) -/
theorem claim4_roundtrip (hrp : String)
    (hh : hrp = "npub" ∨ hrp = "nsec" ∨ hrp = "note")
    (bs : List Nat) (hb : ∀ b ∈ bs, b < 256)
    (hlen : 1 ≤ bs.length ∧ bs.length ≤ 512) (hmod : bs.length % 5 ≠ 0) :
    to_bech32 hrp (hexOfBytes bs)
        = some (bech32_encode hrp (convertbits85 bs))
      ∧ from_bech32 (bech32_encode hrp (convertbits85 bs))
        = .ok (hexOfBytes bs) := by
  constructor
  · rw [to_bech32, bytesFromHex_hexOfBytes bs hb]
    rfl
  · have hdec := bech32_decode_encode hrp (convertbits85 bs)
      (by rcases hh with rfl | rfl | rfl <;> decide)
      (by rcases hh with rfl | rfl | rfl <;> decide)
      (by rcases hh with rfl | rfl | rfl <;> decide)
      (toBase5_lt _)
    rw [from_bech32, hdec]
    dsimp only
    rw [convert_roundtrip bs hb hmod, List.dropLast_concat]

/-- Instantiation of amended claim C4 at the 4-byte sequence `00010203`
under the `npub` prefix. -/
theorem claim4_witness :
    to_bech32 "npub" (hexOfBytes [0, 1, 2, 3])
        = some (bech32_encode "npub" (convertbits85 [0, 1, 2, 3]))
      ∧ from_bech32 (bech32_encode "npub" (convertbits85 [0, 1, 2, 3]))
        = .ok (hexOfBytes [0, 1, 2, 3]) :=
  claim4_roundtrip "npub" (.inl rfl) [0, 1, 2, 3] (by decide)
    (by decide) (by decide)

end Pynostr

namespace Pynostr

/-! ## Base64 (`base64.b64encode` / `base64.b64decode`) -/

/-- The base64 alphabet. -/
def b64Alphabet : List Char :=
  "ABCDEFGHIJKLMNOPQRSTUVWXYZabcdefghijklmnopqrstuvwxyz0123456789+/".data

/-- Alphabet symbol of a 6-bit value. -/
def b64Char (n : Nat) : Char := b64Alphabet.getD n 'A'

/-- `base64.b64encode` on a byte list: three bytes to four symbols,
`=`-padded at the end. -/
def b64encodeChars : List Nat → List Char
  | b1 :: b2 :: b3 :: rest =>
    let n := b1 * 65536 + b2 * 256 + b3
    b64Char (n / 262144) :: b64Char (n / 4096 % 64) :: b64Char (n / 64 % 64)
      :: b64Char (n % 64) :: b64encodeChars rest
  | [b1, b2] =>
    let n := b1 * 65536 + b2 * 256
    [b64Char (n / 262144), b64Char (n / 4096 % 64), b64Char (n / 64 % 64), '=']
  | [b1] =>
    let n := b1 * 65536
    [b64Char (n / 262144), b64Char (n / 4096 % 64), '=', '=']
  | [] => []

/-- `base64.b64encode(...)` as a string. -/
def b64encode (bs : List Nat) : String := ⟨b64encodeChars bs⟩

/-- Value of a base64 symbol, `none` for a foreign character. -/
def b64Val (c : Char) : Option Nat :=
  if 65 ≤ c.toNat ∧ c.toNat ≤ 90 then some (c.toNat - 65)
  else if 97 ≤ c.toNat ∧ c.toNat ≤ 122 then some (c.toNat - 71)
  else if 48 ≤ c.toNat ∧ c.toNat ≤ 57 then some (c.toNat + 4)
  else if c = '+' then some 62
  else if c = '/' then some 63
  else none

/-- Alphabet membership, padding included. -/
def isB64Char (c : Char) : Bool := (b64Val c).isSome || c = '='

/-- Quad-wise base64 decoding with padding handling: `none` on a length
that is not a multiple of four or misplaced padding (Python
`binascii.Error`, "Incorrect padding"). -/
def b64decodeQuads : List Char → Option (List Nat)
  | [] => some []
  | c1 :: c2 :: c3 :: c4 :: rest => do
    let v1 ← b64Val c1
    let v2 ← b64Val c2
    if c3 = '=' then
      if c4 = '=' ∧ rest = [] then some [v1 * 4 + v2 / 16] else none
    else do
      let v3 ← b64Val c3
      if c4 = '=' then
        if rest = [] then some [v1 * 4 + v2 / 16, v2 % 16 * 16 + v3 / 4]
        else none
      else do
        let v4 ← b64Val c4
        let bs ← b64decodeQuads rest
        some ((v1 * 4 + v2 / 16) :: (v2 % 16 * 16 + v3 / 4)
          :: (v3 % 4 * 64 + v4) :: bs)
  | _ => none

/-- Python `base64.b64decode(s, validate=validate)`: with strict validation
any character outside the alphabet and padding raises `binascii.Error`;
without it such characters are silently discarded first.  Either way the
remaining symbols are decoded quad-wise, failing on incorrect padding. -/
def b64decode (validate : Bool) (s : String) : Option (List Nat) :=
  if validate ∧ s.data.any (fun c => ¬ isB64Char c) then none
  else b64decodeQuads (s.data.filter isB64Char)

/-- Symbols of 6-bit values invert to their values. -/
theorem b64Val_b64Char : ∀ n < 64, b64Val (b64Char n) = some n := by decide

/-- Symbols are alphabet members (out-of-range lookups default to `A`,
also a member). -/
theorem isB64Char_b64Char (n : Nat) : isB64Char (b64Char n) = true := by
  by_cases h : n < 64
  · exact (by decide : ∀ n < 64, isB64Char (b64Char n) = true) n h
  · unfold b64Char
    rw [List.getD_eq_default _ _ (by simp [b64Alphabet]; omega)]
    decide

/-- Encoder output stays inside alphabet and padding. -/
theorem b64encode_members : ∀ bs : List Nat, ∀ c ∈ b64encodeChars bs,
    isB64Char c = true
  | b1 :: b2 :: b3 :: rest, c, hc => by
    simp only [b64encodeChars, List.mem_cons] at hc
    rcases hc with rfl | rfl | rfl | rfl | hc
    · exact isB64Char_b64Char _
    · exact isB64Char_b64Char _
    · exact isB64Char_b64Char _
    · exact isB64Char_b64Char _
    · exact b64encode_members rest c hc
  | [b1, b2], c, hc => by
    simp only [b64encodeChars, List.mem_cons] at hc
    rcases hc with rfl | rfl | rfl | rfl | hc
    · exact isB64Char_b64Char _
    · exact isB64Char_b64Char _
    · exact isB64Char_b64Char _
    · decide
    · simp at hc
  | [b1], c, hc => by
    simp only [b64encodeChars, List.mem_cons] at hc
    rcases hc with rfl | rfl | rfl | rfl | hc
    · exact isB64Char_b64Char _
    · exact isB64Char_b64Char _
    · decide
    · decide
    · simp at hc
  | [], c, hc => by simp [b64encodeChars] at hc

end Pynostr

namespace Pynostr

/-- No 6-bit symbol is the padding character. -/
theorem b64Char_ne_pad : ∀ k < 64, b64Char k ≠ '=' := by decide

/-- Quad decoding inverts encoding for in-range bytes. -/
theorem b64decodeQuads_encode : ∀ bs : List Nat, (∀ b ∈ bs, b < 256) →
    b64decodeQuads (b64encodeChars bs) = some bs
  | [], _ => rfl
  | [b1], h => by
    have hb1 := h b1 (by simp)
    simp only [b64encodeChars, b64decodeQuads,
      b64Val_b64Char (b1 * 65536 / 262144) (by omega),
      b64Val_b64Char (b1 * 65536 / 4096 % 64) (by omega)]
    simp only [Option.bind_eq_bind, Option.some_bind, reduceIte, and_self,
      Option.some.injEq, List.cons.injEq, and_true]
    omega
  | [b1, b2], h => by
    have hb1 := h b1 (by simp)
    have hb2 := h b2 (by simp)
    simp only [b64encodeChars, b64decodeQuads,
      b64Val_b64Char ((b1 * 65536 + b2 * 256) / 262144) (by omega),
      b64Val_b64Char ((b1 * 65536 + b2 * 256) / 4096 % 64) (by omega),
      b64Val_b64Char ((b1 * 65536 + b2 * 256) / 64 % 64) (by omega),
      Option.bind_eq_bind, Option.some_bind]
    rw [if_neg (b64Char_ne_pad _ (by omega))]
    simp only [Option.bind_eq_bind, Option.some_bind, reduceIte,
      Option.some.injEq, List.cons.injEq, and_true]
    refine ⟨by omega, by omega⟩
  | [b1, b2, b3], h => by
    have hb1 := h b1 (by simp)
    have hb2 := h b2 (by simp)
    have hb3 := h b3 (by simp)
    simp only [b64encodeChars, b64decodeQuads,
      b64Val_b64Char ((b1 * 65536 + b2 * 256 + b3) / 262144) (by omega),
      b64Val_b64Char ((b1 * 65536 + b2 * 256 + b3) / 4096 % 64) (by omega),
      b64Val_b64Char ((b1 * 65536 + b2 * 256 + b3) / 64 % 64) (by omega),
      b64Val_b64Char ((b1 * 65536 + b2 * 256 + b3) % 64) (by omega),
      Option.bind_eq_bind, Option.some_bind]
    rw [if_neg (b64Char_ne_pad _ (by omega)),
      if_neg (b64Char_ne_pad _ (by omega))]
    simp only [b64decodeQuads, Option.bind_eq_bind, Option.some_bind,
      Option.some.injEq, List.cons.injEq, and_true]
    refine ⟨by omega, by omega, by omega⟩
  | b1 :: b2 :: b3 :: r1 :: rest, h => by
    have hb1 := h b1 (by simp)
    have hb2 := h b2 (by simp)
    have hb3 := h b3 (by simp)
    have ih := b64decodeQuads_encode (r1 :: rest)
      fun x hx => h x (by simp at hx ⊢; tauto)
    simp only [b64encodeChars, b64decodeQuads,
      b64Val_b64Char ((b1 * 65536 + b2 * 256 + b3) / 262144) (by omega),
      b64Val_b64Char ((b1 * 65536 + b2 * 256 + b3) / 4096 % 64) (by omega),
      b64Val_b64Char ((b1 * 65536 + b2 * 256 + b3) / 64 % 64) (by omega),
      b64Val_b64Char ((b1 * 65536 + b2 * 256 + b3) % 64) (by omega)]
    simp only [Option.bind_eq_bind, Option.some_bind]
    rw [if_neg (b64Char_ne_pad _ (by omega)),
      if_neg (b64Char_ne_pad _ (by omega)), ih]
    simp only [Option.bind_eq_bind, Option.some_bind, Option.some.injEq,
      List.cons.injEq, and_true]
    refine ⟨by omega, by omega, by omega⟩

/-- Full base64 round trip, in either validation mode. -/
theorem b64decode_encode (validate : Bool) (bs : List Nat)
    (h : ∀ b ∈ bs, b < 256) : b64decode validate (b64encode bs) = some bs := by
  unfold b64decode b64encode
  rw [if_neg (by
    intro hcon
    obtain ⟨c, hc1, hc2⟩ := List.any_eq_true.mp hcon.2
    simp [b64encode_members bs c hc1] at hc2)]
  rw [List.filter_eq_self.mpr fun c hc => b64encode_members bs c hc]
  exact b64decodeQuads_encode bs h

/-- Encoder output never holds a question mark. -/
theorem b64encode_no_question (bs : List Nat) :
    ('?' : Char) ∉ b64encodeChars bs := fun hmem => by
  have h := b64encode_members bs '?' hmem
  simp [isB64Char, b64Val] at h

end Pynostr

namespace Pynostr

/-! ## UTF-8 round trip and the `"?iv="` split -/

/-- Valid code-point range of a Lean `Char` (no surrogates, below
`0x110000`), as plain arithmetic. -/
theorem char_valid_nat (c : Char) :
    c.toNat < 0x110000 ∧ ¬ (0xd800 ≤ c.toNat ∧ c.toNat < 0xe000) := by
  have h := c.valid
  have he : c.toNat = c.val.toNat := rfl
  rcases h with h | h
  · rw [he]
    omega
  · rw [he]
    omega

/-- Decoding one encoded character at the head of a byte stream yields its
code point and the remainder. -/
theorem utf8Step_char (c : Char) (rest : List Nat) :
    utf8Step (utf8Char c.toNat ++ rest) = some (c.toNat, rest) := by
  obtain ⟨hv1, hv2⟩ := char_valid_nat c
  unfold utf8Char
  by_cases h1 : c.toNat < 0x80
  · rw [if_pos h1]
    show utf8Step (c.toNat :: rest) = _
    unfold utf8Step
    dsimp only
    rw [if_pos h1]
  · by_cases h2 : c.toNat < 0x800
    · rw [if_neg h1, if_pos h2]
      show utf8Step ((0xc0 + c.toNat / 0x40)
        :: (0x80 + c.toNat % 0x40) :: rest) = _
      unfold utf8Step
      dsimp only
      rw [if_neg (by omega), if_neg (by omega), if_pos (by omega)]
      rw [if_pos (by constructor <;> omega)]
      rw [if_pos (by omega)]
      have hn : (0xc0 + c.toNat / 0x40 - 0xc0) * 0x40
          + (0x80 + c.toNat % 0x40 - 0x80) = c.toNat := by omega
      rw [hn]
    · by_cases h3 : c.toNat < 0x10000
      · rw [if_neg h1, if_neg h2, if_pos h3]
        show utf8Step ((0xe0 + c.toNat / 0x1000)
          :: (0x80 + c.toNat / 0x40 % 0x40) :: (0x80 + c.toNat % 0x40)
          :: rest) = _
        unfold utf8Step
        dsimp only
        rw [if_neg (by omega), if_neg (by omega), if_neg (by omega),
          if_pos (by omega)]
        rw [if_pos (by exact ⟨⟨by omega, by omega⟩, by omega, by omega⟩)]
        have hn : (0xe0 + c.toNat / 0x1000 - 0xe0) * 0x1000
            + (0x80 + c.toNat / 0x40 % 0x40 - 0x80) * 0x40
            + (0x80 + c.toNat % 0x40 - 0x80) = c.toNat := by omega
        rw [hn, if_pos (by exact ⟨by omega, hv2⟩)]
      · rw [if_neg h1, if_neg h2, if_neg h3]
        show utf8Step ((0xf0 + c.toNat / 0x40000)
          :: (0x80 + c.toNat / 0x1000 % 0x40)
          :: (0x80 + c.toNat / 0x40 % 0x40) :: (0x80 + c.toNat % 0x40)
          :: rest) = _
        unfold utf8Step
        dsimp only
        rw [if_neg (by omega), if_neg (by omega), if_neg (by omega),
          if_neg (by omega), if_pos (by omega)]
        rw [if_pos (by exact ⟨⟨by omega, by omega⟩, ⟨by omega, by omega⟩,
          by omega, by omega⟩)]
        have hn : (0xf0 + c.toNat / 0x40000 - 0xf0) * 0x40000
            + (0x80 + c.toNat / 0x1000 % 0x40 - 0x80) * 0x1000
            + (0x80 + c.toNat / 0x40 % 0x40 - 0x80) * 0x40
            + (0x80 + c.toNat % 0x40 - 0x80) = c.toNat := by omega
        rw [hn, if_pos (by constructor <;> omega)]

/-- An encoded character is at least one byte. -/
theorem utf8Char_ne_nil (n : Nat) : utf8Char n ≠ [] := by
  unfold utf8Char
  split_ifs <;> simp

/-- Decoding the encoding of a character list yields its code points, for
any sufficient fuel. -/
theorem utf8DecodeList_encode : ∀ (l : List Char) (fuel : Nat),
    ((l.map fun c => utf8Char c.toNat).flatten).length ≤ fuel →
    utf8DecodeList fuel ((l.map fun c => utf8Char c.toNat).flatten)
      = some (l.map Char.toNat)
  | [], fuel, _ => by cases fuel <;> rfl
  | c :: cs, fuel, hf => by
    rcases hch : utf8Char c.toNat with _ | ⟨b, bs⟩
    · exact absurd hch (utf8Char_ne_nil c.toNat)
    · have hstep := utf8Step_char c ((cs.map fun x => utf8Char x.toNat).flatten)
      rw [hch] at hstep
      rw [List.map_cons, List.flatten_cons, hch] at hf ⊢
      have hf2 : (b :: (bs ++ (cs.map fun x => utf8Char x.toNat).flatten)).length
          ≤ fuel := by
        rw [← List.cons_append]
        exact hf
      simp only [List.length_cons, List.length_append] at hf2
      obtain ⟨f, rfl⟩ : ∃ f, fuel = f + 1 := ⟨fuel - 1, by omega⟩
      have hrec := utf8DecodeList_encode cs f (by omega)
      rw [List.cons_append] at hstep ⊢
      rw [utf8DecodeList, hstep]
      dsimp only
      rw [hrec]
      rfl

/-- Full UTF-8 round trip on strings. -/
theorem utf8_roundtrip (s : String) : utf8Decode (utf8Encode s) = some s := by
  unfold utf8Decode utf8Encode
  rw [utf8DecodeList_encode s.data _ (Nat.le_refl _)]
  have hmap : (s.data.map Char.toNat).map Char.ofNat = s.data := by
    rw [List.map_map, List.map_congr_left fun c _ =>
      show (Char.ofNat ∘ Char.toNat) c = id c from Char.ofNat_toNat c,
      List.map_id]
  show some (⟨(s.data.map Char.toNat).map Char.ofNat⟩ : String) = some s
  rw [hmap]

/-- Python `str.split("?iv=")` on character lists: leftmost,
non-overlapping. -/
def splitIv : List Char → List (List Char)
  | [] => [[]]
  | '?' :: 'i' :: 'v' :: '=' :: rest => [] :: splitIv rest
  | c :: rest =>
    match splitIv rest with
    | [] => [[c]]
    | part :: parts => (c :: part) :: parts

/-- A split has at least one part. -/
theorem splitIv_ne_nil (l : List Char) : splitIv l ≠ [] := by
  rw [splitIv.eq_def]
  split
  · simp
  · simp
  · split <;> simp

/-- The separator is an infix as soon as a split arm fires. -/
theorem sep_infix_cons (c : Char) (rest : List Char)
    (h : "?iv=".data <:+: rest) : "?iv=".data <:+: c :: rest := by
  obtain ⟨s, t, hst⟩ := h
  exact ⟨c :: s, t, by simp [← hst]⟩

/-- Without the separator, the split returns the whole string as its only
part. -/
theorem splitIv_no_sep : ∀ l : List Char, ¬ ("?iv=".data <:+: l) →
    splitIv l = [l]
  | [], _ => rfl
  | '?' :: 'i' :: 'v' :: '=' :: rest, h =>
    absurd ⟨[], rest, rfl⟩ h
  | c :: rest, h => by
    have ih := splitIv_no_sep rest fun hm => h (sep_infix_cons c rest hm)
    rw [splitIv.eq_def]
    split
    · rename_i heq
      simp at heq
    · rename_i heq
      exact absurd (heq ▸ ⟨[], _, rfl⟩) h
    · rename_i c2 rest2 hne heq
      obtain ⟨rfl, rfl⟩ : c2 = c ∧ rest2 = rest := by
        injection heq with h1 h2
        exact ⟨h1.symm, h2.symm⟩
      rw [ih]

/-- A question-mark-free string cannot contain the separator. -/
theorem no_question_no_sep (l : List Char) (h : ('?' : Char) ∉ l) :
    ¬ ("?iv=".data <:+: l) := fun hinf => by
  obtain ⟨s, t, hst⟩ := hinf
  exact h (by rw [← hst]; simp [String.data])

/-- Splitting around a single separator occurrence. -/
theorem splitIv_around : ∀ a : List Char, ∀ b : List Char,
    ('?' : Char) ∉ a →
    splitIv (a ++ '?' :: 'i' :: 'v' :: '=' :: b) = a :: splitIv b
  | [], b, _ => rfl
  | c :: a, b, h => by
    have hc : c ≠ '?' := fun e => h (e ▸ List.mem_cons_self c a)
    have ih := splitIv_around a b fun hm => h (List.mem_cons_of_mem c hm)
    rw [splitIv.eq_def]
    split
    · rename_i heq
      simp at heq
    · rename_i rest heq
      rw [List.cons_append] at heq
      injection heq with h1 _
      exact absurd h1 hc
    · rename_i c2 rest2 hne heq
      rw [List.cons_append] at heq
      obtain ⟨rfl, hr⟩ : c2 = c ∧ rest2 = a ++ '?' :: 'i' :: 'v' :: '=' :: b := by
        injection heq with h1 h2
        exact ⟨h1.symm, h2.symm⟩
      rw [hr, ih]

end Pynostr

namespace Pynostr

/-! ## The cryptographic envelope
(`pynostr/__init__.py` `PrvKey.shared_secret` / `PrvKey.encrypt` /
`PrvKey.decrypt` / `_encrypt` / `_decrytp` / `_pubkey`,
`pynostr/event.py` `Event.encrypt` / `Event.decrypt`)

The elliptic-curve point arithmetic and the AES block/stream ciphers are
external (`cSecp256k1`, `pyaes`); they are bundled as the parameter record
`CryptoPrim`.  A private key is the integer the source's `PrvKey` wraps. -/

/-- The external primitives: `puk` is the x-only public key derivation
(`PrvKey.pubkey`), `mulX` is `(cSecp256k1.PublicKey.decode(p) * k).x`
(hex), `cbcEnc`/`cbcDec` are the `pyaes` CBC mode with PKCS7 padding
(key, iv, data), and `ctr` is `pyaes.AESModeOfOperationCTR(key)` applied
to a byte string (its encrypt and decrypt are the same keystream xor). -/
structure CryptoPrim where
  puk : Nat → String
  mulX : String → Nat → String
  cbcEnc : List Nat → List Nat → List Nat → List Nat
  cbcDec : List Nat → List Nat → List Nat → List Nat
  ctr : List Nat → List Nat → List Nat

/-- Python `str.startswith("npub")`. -/
def startsNpub : List Char → Bool
  | 'n' :: 'p' :: 'u' :: 'b' :: _ => true
  | _ => false

/-- The `HEX64` regular expression `^[0-9a-f]{64}$`. -/
def isHex64 (s : String) : Bool :=
  s.data.length = 64 && s.data.all fun c =>
    (48 ≤ c.toNat && c.toNat ≤ 57) || (97 ≤ c.toNat && c.toNat ≤ 102)

/-- Translation of `PrvKey.shared_secret`: normalize the counterparty key
(bech32 form is decoded, a bare 64-character x-coordinate gets the even-y
prefix byte) and take the x-coordinate of the external point
multiplication. -/
def shared_secret (P : CryptoPrim) (prv : Nat) (pubkey : String) :
    Except PyErr String :=
  if startsNpub pubkey.data then do
    let x ← from_bech32 pubkey
    pure (P.mulX ("02" ++ x) prv)
  else if pubkey.length = 64 then pure (P.mulX ("02" ++ pubkey) prv)
  else pure (P.mulX pubkey prv)

/-- `binascii.unhexlify`, raising on a malformed hex string. -/
def unhexlify (s : String) : Except PyErr (List Nat) :=
  match bytesFromHex s with
  | some bs => .ok bs
  | none => .error .valueError

/-- Translation of `_encrypt`: CBC-encrypt the UTF-8 of the message. -/
def _encrypt (P : CryptoPrim) (msg : String) (secret iv : List Nat) :
    List Nat :=
  P.cbcEnc secret iv (utf8Encode msg)

/-- Translation of `_decrytp` (the source's spelling): CBC-decrypt. -/
def _decrytp (P : CryptoPrim) (cipher secret iv : List Nat) : List Nat :=
  P.cbcDec secret iv cipher

/-- Translation of `PrvKey.encrypt`: derive the shared secret with the
recipient, CBC-encrypt under a random 16-byte initialization vector
(passed here as the `iv` argument, standing for `os.urandom(16)`), and
join the base64 of ciphertext and vector with the literal `"?iv="`. -/
def PrvKey.encrypt (P : CryptoPrim) (prv : Nat) (msg : String)
    (pubkey : String) (iv : List Nat) : Except PyErr String := do
  let ss ← shared_secret P prv pubkey
  let key ← unhexlify ss
  pure (b64encode (_encrypt P msg key iv) ++ "?iv=" ++ b64encode iv)

/-- Translation of `PrvKey.decrypt`: split on the literal `"?iv="`
(`Nip04EncryptionError` unless exactly two parts), base64-decode both
halves with `validate=True` (`Base64ProcessingError` on failure), derive
the shared secret with the issuer, CBC-decrypt and decode as UTF-8. -/
def PrvKey.decrypt (P : CryptoPrim) (prv : Nat) (msg : String)
    (pubkey : String) : Except PyErr String := do
  match (splitIv msg.data).map (fun l => (⟨l⟩ : String)) with
  | [cipherB, ivB] =>
    match b64decode true cipherB, b64decode true ivB with
    | some cipher, some iv => do
      let ss ← shared_secret P prv pubkey
      let key ← unhexlify ss
      match utf8Decode (_decrytp P cipher key iv) with
      | some out => pure out
      | none => .error .valueError
    | _, _ => .error .base64Err
  | _ => .error .nip04

/-- Translation of `_pubkey` on strings: decode a bech32 form, keep a
64-character lowercase hex form, otherwise strip the leading prefix
byte. -/
def _pubkey (pubkey : String) : Except PyErr String :=
  if startsNpub pubkey.data then from_bech32 pubkey
  else if ¬ isHex64 pubkey then .ok ⟨pubkey.data.drop 2⟩
  else .ok pubkey

/-- Translation of `TagList.add_pubkey`: validate the 64-character hex
form (`InvalidHexString` otherwise) and build
`["p", pubkey, url] (+ [petname])`. -/
def add_pubkey_tag (pubkey url : String) (petname : Option String) :
    Except PyErr (List String) :=
  if isHex64 pubkey then
    .ok (["p", pubkey, url] ++ (match petname with
      | some pn => [pn]
      | none => []))
  else .error .invalidHex

/-- Attribute access on the optional `content` (`AttributeError` on
`None`). -/
def contentOrErr (e : Event) : Except PyErr String :=
  match e.content with
  | some ct => .ok ct
  | none => .error .attributeError

/-- The body of the NIP-48 loop of `Event.encrypt`: derive the shared
secret with one recipient and attach the counter-mode-encrypted message
secret as the fourth field of that recipient's pubkey tag. -/
def nip48Tag (P : CryptoPrim) (prv : Nat) (secret : List Nat)
    (p : String) : Except PyErr (List String) := do
  let ss ← shared_secret P prv p
  let key ← unhexlify ss
  add_pubkey_tag p "" (some (b64encode (P.ctr key secret)))

/-- Translation of `Event.encrypt`.  Recipients are normalized through
`_pubkey`.  With several recipients (NIP-48) the message secret is
`sha256(content)`, counter-mode-encrypted to each recipient and attached as
the fourth field of that recipient's pubkey tag; with one recipient
(NIP-04) the secret is the ECDH shared secret and the recipient tag is
added if missing; with none the bare `Exception` is raised.  The content
is then CBC-encrypted under the secret and a random IV (the `iv`
argument), and `pubkey`, `kind` and `content` are overwritten; the mutated
event is returned. -/
def Event.encrypt (P : CryptoPrim) (prv : Nat) (pubkeys : List String)
    (iv : List Nat) (e : Event) : Except PyErr Event := do
  let puks ← pubkeys.mapM _pubkey
  let sectags ← (match puks with
    | [] => (.error .noRecipient : Except PyErr (List Nat × List (List String)))
    | [pubkey] => do
      let ss ← shared_secret P prv pubkey
      let secret ← unhexlify ss
      if pubkey ∈ ((e.tags.filter fun t => t.headD "" = "p").map
          fun t => t.getD 1 "") then
        pure (secret, e.tags)
      else do
        let tag ← add_pubkey_tag pubkey "" none
        pure (secret, e.tags ++ [tag])
    | _ :: _ :: _ => do
      let content ← contentOrErr e
      let secret := sha256 (utf8Encode content)
      let newTags ← puks.mapM (nip48Tag P prv secret)
      pure (secret, e.tags ++ newTags))
  let content ← contentOrErr e
  pure { e with
    tags := sectags.2,
    pubkey := some (P.puk prv),
    kind := some 4,
    content := some (b64encode (P.cbcEnc sectags.1 iv (utf8Encode content))
      ++ "?iv=" ++ b64encode iv) }

/-- Translation of `Event.decrypt`: find the first tag referencing the
local public key (`EmptyTagException` when none), recover the message
secret — from the tag's fourth field when it is valid base64 (strictly
validated), counter-mode-decrypted under the shared secret with the
sender, or (on a missing field or a base64 failure, the NIP-04 legacy
form) as the shared secret itself — then split the content on `"?iv="`,
base64-decode both halves WITHOUT strict validation, CBC-decrypt and
decode as UTF-8. -/
def Event.decrypt (P : CryptoPrim) (prv : Nat) (e : Event) :
    Except PyErr String := do
  let pubkey := P.puk prv
  match e.tags.filter fun t => t.getD 1 "" = pubkey with
  | [] => .error .emptyTag
  | t0 :: _ => do
    let senderPk ← (match e.pubkey with
      | some pk => (.ok pk : Except PyErr String)
      | none => .error .attributeError)
    let secret ← (match t0.get? 3 with
      | none => do
        let ss ← shared_secret P prv senderPk
        unhexlify ss
      | some s4 =>
        match b64decode true s4 with
        | none => do
          let ss ← shared_secret P prv senderPk
          unhexlify ss
        | some ctrCipher => do
          let ss ← shared_secret P prv senderPk
          let key ← unhexlify ss
          pure (P.ctr key ctrCipher))
    let content ← contentOrErr e
    match (splitIv content.data).map (fun l => (⟨l⟩ : String)) with
    | [cipherB, ivB] =>
      match b64decode false cipherB, b64decode false ivB with
      | some cipher, some iv =>
        (match utf8Decode (_decrytp P cipher secret iv) with
         | some out => pure out
         | none => .error .valueError)
      | _, _ => .error .base64Err
    | _ => .error .nip04

end Pynostr

namespace Pynostr

/-! ## Supporting lemmas for the encryption round trip -/

/-- UTF-8 bytes of one code point are bytes. -/
theorem utf8Char_lt (n : Nat) (hn : n < 1114112) : ∀ v ∈ utf8Char n, v < 256 := by
  unfold utf8Char
  split
  · intro v hv
    rename_i h1
    simp at hv
    omega
  · split
    · intro v hv
      simp at hv
      rcases hv with h | h <;> omega
    · split
      · intro v hv
        simp at hv
        rcases hv with h | h | h <;> omega
      · intro v hv
        rename_i h1 h2 h3
        simp at hv
        rcases hv with h | h | h | h <;> omega

/-- UTF-8 encoding yields bytes. -/
theorem utf8Encode_lt (s : String) : ∀ v ∈ utf8Encode s, v < 256 := by
  intro v hv
  unfold utf8Encode at hv
  obtain ⟨l, hl, hvl⟩ := List.mem_flatten.mp hv
  obtain ⟨c, _, rfl⟩ := List.mem_map.mp hl
  exact utf8Char_lt c.toNat (char_valid_nat c).1 v hvl

/-- Big-endian byte rendering yields bytes. -/
theorem bytesBE_lt (n v : Nat) : ∀ x ∈ bytesBE n v, x < 256 := by
  intro x hx
  unfold bytesBE at hx
  obtain ⟨i, _, rfl⟩ := List.mem_map.mp hx
  exact Nat.mod_lt _ (by omega)

/-- The SHA-256 digest consists of bytes. -/
theorem sha256_lt (msg : List Nat) : ∀ v ∈ sha256 msg, v < 256 := by
  intro v hv
  unfold sha256 at hv
  obtain ⟨l, hl, hvl⟩ := List.mem_flatten.mp hv
  obtain ⟨w, _, rfl⟩ := List.mem_map.mp hl
  exact bytesBE_lt 4 w v hvl

/-- Splitting the encrypted wire format recovers the two base64 parts. -/
theorem splitIv_wire (x y : List Nat) :
    (splitIv (b64encode x ++ "?iv=" ++ b64encode y).data).map
      (fun l => (⟨l⟩ : String)) = [b64encode x, b64encode y] := by
  have hdata : (b64encode x ++ "?iv=" ++ b64encode y).data
      = b64encodeChars x ++ '?' :: 'i' :: 'v' :: '=' :: b64encodeChars y := by
    rw [String.data_append, String.data_append, List.append_assoc]
    rfl
  rw [hdata, splitIv_around _ _ (b64encode_no_question x),
    splitIv_no_sep _ (no_question_no_sep _ (b64encode_no_question y))]
  rfl

/-- `unhexlify` succeeds exactly as `bytes.fromhex`. -/
theorem unhexlify_ok (s : String) (bs : List Nat)
    (h : bytesFromHex s = some bs) : unhexlify s = .ok bs := by
  unfold unhexlify
  rw [h]

/-- `_pubkey` is the identity on 64-character lowercase hex strings. -/
theorem _pubkey_hex (p : String) (h : isHex64 p = true) : _pubkey p = .ok p := by
  have h2 := h
  unfold isHex64 at h2
  obtain ⟨hlen, hall⟩ := (Bool.and_eq_true _ _).mp h2
  have hn : startsNpub p.data = false := by
    rw [startsNpub.eq_def]
    split
    · rename_i heq
      have hmem : ('n' : Char) ∈ p.data := by
        rw [heq]
        exact List.mem_cons_self _ _
      exact absurd (List.all_eq_true.mp hall _ hmem) (by decide)
    · rfl
  unfold _pubkey
  rw [if_neg (by simp [hn]), if_neg (by simp [h])]

/-- Normalization of a list of 64-character hex public keys is the
identity. -/
theorem mapM_pubkey_id : ∀ l : List String, (∀ p ∈ l, isHex64 p = true) →
    l.mapM _pubkey = .ok l
  | [], _ => rfl
  | p :: rest, h => by
    rw [List.mapM_cons, _pubkey_hex p (h p (List.mem_cons_self _ _)),
      mapM_pubkey_id rest fun q hq => h q (List.mem_cons_of_mem _ hq)]
    rfl

/-- The per-recipient tag construction of the NIP-48 branch evaluated on
well-formed recipients. -/
theorem mapM_ctr_tags (P : CryptoPrim) (a : Nat) (secret : List Nat)
    (sshexF : String → String) (skeyF : String → List Nat) :
    ∀ l : List String, (∀ p ∈ l, isHex64 p = true) →
    (∀ p ∈ l, shared_secret P a p = .ok (sshexF p)) →
    (∀ p ∈ l, bytesFromHex (sshexF p) = some (skeyF p)) →
    l.mapM (nip48Tag P a secret)
      = .ok (l.map fun p => ["p", p, "", b64encode (P.ctr (skeyF p) secret)])
  | [], _, _, _ => rfl
  | p :: rest, hh, hs, hk => by
    have hfp : nip48Tag P a secret p
        = (.ok ["p", p, "", b64encode (P.ctr (skeyF p) secret)]
            : Except PyErr (List String)) := by
      unfold nip48Tag
      rw [hs p (List.mem_cons_self _ _)]
      simp only [bind, Except.bind]
      rw [unhexlify_ok _ _ (hk p (List.mem_cons_self _ _))]
      dsimp only
      unfold add_pubkey_tag
      rw [if_pos (hh p (List.mem_cons_self _ _))]
      rfl
    rw [List.mapM_cons, hfp,
      mapM_ctr_tags P a secret sshexF skeyF rest
        (fun q hq => hh q (List.mem_cons_of_mem _ hq))
        (fun q hq => hs q (List.mem_cons_of_mem _ hq))
        (fun q hq => hk q (List.mem_cons_of_mem _ hq))]
    rfl

/-- A filter for a value that is a member keeps that value first among
equals. -/
theorem filter_eq_head (B : String) (l : List String) (hmem : B ∈ l) :
    ∃ rest, l.filter (fun q => q = B) = B :: rest := by
  have hBmem : B ∈ l.filter (fun q => q = B) :=
    List.mem_filter.mpr ⟨hmem, by simp⟩
  cases hf : l.filter (fun q => q = B) with
  | nil =>
    rw [hf] at hBmem
    simp at hBmem
  | cons h t =>
    have hhB : h = B := by
      have hm := List.mem_filter.mp (hf ▸ List.mem_cons_self h t)
      simpa using hm.2
    exact ⟨t, by rw [hhB]⟩

end Pynostr

namespace Pynostr

/-- C6: with the external primitives behaving as elliptic-curve
Diffie-Hellman (the two parties derive the same shared secret, a valid hex
string) and AES (CBC decryption inverts CBC encryption, the CTR keystream
transformation is a byte-preserving involution), encrypting with private
key `a` to `b`'s public key and decrypting with private key `b` against
`a`'s public key recovers the original plaintext — for the single-recipient
scheme (`PrvKey.encrypt`/`PrvKey.decrypt`) and for the multi-recipient
scheme (`Event.encrypt` with at least two normalized recipient keys,
`b`'s among them, on an event with no prior tags / `Event.decrypt`),
including multi-byte UTF-8 content. -/
theorem claim6_encrypt_decrypt_roundtrip
    (P : CryptoPrim) (a b : Nat) (msg : String) (iv : List Nat)
    (sshex : String) (key : List Nat)
    (puks : List String) (e : Event)
    (sshexF : String → String) (skeyF : String → List Nat)
    (hss1 : shared_secret P a (P.puk b) = .ok sshex)
    (hss2 : shared_secret P b (P.puk a) = .ok sshex)
    (hkey : bytesFromHex sshex = some key)
    (hcbc : ∀ k i m, P.cbcDec k i (P.cbcEnc k i m) = m)
    (hcbcR : ∀ k i m, (∀ v ∈ m, v < 256) → ∀ v ∈ P.cbcEnc k i m, v < 256)
    (hctr : ∀ k x, P.ctr k (P.ctr k x) = x)
    (hctrR : ∀ k x, (∀ v ∈ x, v < 256) → ∀ v ∈ P.ctr k x, v < 256)
    (hivR : ∀ v ∈ iv, v < 256)
    (hpuks : 2 ≤ puks.length) (hmem : P.puk b ∈ puks)
    (hhex : ∀ p ∈ puks, isHex64 p = true)
    (hssF : ∀ p ∈ puks, shared_secret P a p = .ok (sshexF p))
    (hkeyF : ∀ p ∈ puks, bytesFromHex (sshexF p) = some (skeyF p))
    (htags : e.tags = []) (hcontent : e.content = some msg) :
    (∀ enc, PrvKey.encrypt P a msg (P.puk b) iv = .ok enc →
      PrvKey.decrypt P b enc (P.puk a) = .ok msg)
    ∧ (∀ e2, Event.encrypt P a puks iv e = .ok e2 →
      Event.decrypt P b e2 = .ok msg) := by
  have hunhex : unhexlify sshex = .ok key := unhexlify_ok _ _ hkey
  constructor
  · intro enc henc
    have hencval : PrvKey.encrypt P a msg (P.puk b) iv
        = .ok (b64encode (_encrypt P msg key iv) ++ "?iv=" ++ b64encode iv) := by
      unfold PrvKey.encrypt
      rw [hss1]
      simp only [bind, Except.bind]
      rw [hunhex]
      rfl
    rw [hencval] at henc
    injection henc with henc
    subst henc
    unfold PrvKey.decrypt
    rw [splitIv_wire]
    dsimp only
    have hrange1 : ∀ v ∈ _encrypt P msg key iv, v < 256 := by
      unfold _encrypt
      exact hcbcR key iv _ (utf8Encode_lt msg)
    rw [b64decode_encode true _ hrange1, b64decode_encode true iv hivR]
    dsimp only
    rw [hss2]
    simp only [bind, Except.bind]
    rw [hunhex]
    dsimp only
    unfold _decrytp _encrypt
    rw [hcbc key iv (utf8Encode msg), utf8_roundtrip]
    rfl
  · intro e2 henc
    obtain ⟨p1, t1, rfl⟩ : ∃ x l, puks = x :: l := by
      cases puks with
      | nil => simp at hpuks
      | cons x l => exact ⟨x, l, rfl⟩
    obtain ⟨p2, t2, rfl⟩ : ∃ x l, t1 = x :: l := by
      cases t1 with
      | nil => simp at hpuks
      | cons x l => exact ⟨x, l, rfl⟩
    have hexb : sshexF (P.puk b) = sshex := by
      have h1 := hssF (P.puk b) hmem
      rw [hss1] at h1
      injection h1 with h1
      exact h1.symm
    have hkeyb : skeyF (P.puk b) = key := by
      have h1 := hkeyF (P.puk b) hmem
      rw [hexb, hkey] at h1
      injection h1 with h1
      exact h1.symm
    have hcont : contentOrErr e = .ok msg := by
      unfold contentOrErr
      rw [hcontent]
    have henc2 : Event.encrypt P a (p1 :: p2 :: t2) iv e = .ok
        { e with
          tags := (p1 :: p2 :: t2).map fun p =>
            ["p", p, "", b64encode (P.ctr (skeyF p) (sha256 (utf8Encode msg)))],
          pubkey := some (P.puk a),
          kind := some 4,
          content := some (b64encode (P.cbcEnc (sha256 (utf8Encode msg)) iv
            (utf8Encode msg)) ++ "?iv=" ++ b64encode iv) } := by
      unfold Event.encrypt
      rw [mapM_pubkey_id _ hhex]
      simp only [bind, Except.bind]
      rw [hcont]
      dsimp only
      rw [mapM_ctr_tags P a _ sshexF skeyF _ hhex hssF hkeyF]
      simp only [bind, Except.bind, pure, Except.pure]
      rw [htags]
      rfl
    rw [henc2] at henc
    injection henc with henc
    subst henc
    unfold Event.decrypt
    dsimp only
    rw [List.filter_map,
      show ((fun t : List String => decide (t.getD 1 "" = P.puk b)) ∘ fun p =>
          ["p", p, "", b64encode (P.ctr (skeyF p) (sha256 (utf8Encode msg)))])
        = fun q => decide (q = P.puk b) from funext fun q => rfl]
    obtain ⟨restK, hrk⟩ := filter_eq_head (P.puk b) (p1 :: p2 :: t2) hmem
    rw [hrk]
    simp only [List.map_cons]
    have hget : (["p", P.puk b, "",
        b64encode (P.ctr (skeyF (P.puk b)) (sha256 (utf8Encode msg)))]
          : List String).get? 3
        = some (b64encode (P.ctr (skeyF (P.puk b)) (sha256 (utf8Encode msg))))
        := rfl
    rw [hget, hkeyb]
    dsimp only
    rw [b64decode_encode true _ (hctrR key _ (sha256_lt (utf8Encode msg)))]
    dsimp only
    simp only [bind, Except.bind, pure, Except.pure]
    rw [hss2]
    dsimp only
    rw [hunhex]
    dsimp only
    rw [hctr key (sha256 (utf8Encode msg))]
    unfold contentOrErr
    dsimp only
    rw [splitIv_wire]
    dsimp only
    rw [b64decode_encode false _
        (hcbcR (sha256 (utf8Encode msg)) iv _ (utf8Encode_lt msg)),
      b64decode_encode false iv hivR]
    dsimp only
    unfold _decrytp
    rw [hcbc (sha256 (utf8Encode msg)) iv (utf8Encode msg), utf8_roundtrip]

end Pynostr

namespace Pynostr

/-- A second 64-character hex public key (the docstring example key of the
source's `Contact`). -/
def pubkeyB0 : String :=
  "9aa650df414cc71b37176412aecba987727b6f1b8cd550f40e9ca10b7af5a239"

/-- A concrete instantiation of the external primitives: key derivation
maps the two private keys to the two fixed public keys, the point
multiplication yields the constant x-coordinate `"0a"`, and both AES modes
are the identity transformation (which satisfies the inversion and
byte-range laws). -/
def cryptoId : CryptoPrim :=
  { puk := fun n => if n = 1 then pubkeyA else pubkeyB0,
    mulX := fun _ _ => "0a",
    cbcEnc := fun _ _ m => m,
    cbcDec := fun _ _ c => c,
    ctr := fun _ x => x }

/-- A fixed all-zero initialization vector standing for `os.urandom(16)`. -/
def ivZero : List Nat := List.replicate 16 0

/-- A plaintext with two-byte and three-byte UTF-8 characters. -/
def msgC6 : String := "héllo ☺"

/-- The NIP-04 wire format of `msgC6` under the identity cipher. -/
def wireC6 : String :=
  b64encode (utf8Encode msgC6) ++ "?iv=" ++ b64encode ivZero

/-- The plain event holding `msgC6` before encryption. -/
def eventC6 : Event :=
  { id := none, pubkey := none, created_at := none, kind := some 1,
    tags := [], content := some msgC6, sig := none }

/-- The event produced by `Event.encrypt` on `eventC6` for the two
recipients under the identity cipher. -/
def eventC6enc : Event :=
  { id := none, pubkey := some pubkeyA, created_at := none, kind := some 4,
    tags := [["p", pubkeyA, "", b64encode (sha256 (utf8Encode msgC6))],
             ["p", pubkeyB0, "", b64encode (sha256 (utf8Encode msgC6))]],
    content := some wireC6, sig := none }

set_option maxRecDepth 4000 in
/-- C6 witness: the round trip evaluated at the concrete instantiation
`cryptoId` with the multi-byte plaintext `"héllo ☺"`, for both schemes. -/
theorem claim6_witness :
    PrvKey.decrypt cryptoId 2 wireC6 (cryptoId.puk 1) = .ok msgC6
    ∧ Event.decrypt cryptoId 2 eventC6enc = .ok msgC6 := by
  have h := claim6_encrypt_decrypt_roundtrip cryptoId 1 2 msgC6 ivZero
    "0a" [10] [pubkeyA, pubkeyB0] eventC6 (fun _ => "0a") (fun _ => [10])
    (by decide) (by decide) (by decide)
    (fun _ _ _ => rfl) (fun _ _ _ hm => hm) (fun _ _ => rfl) (fun _ _ hx => hx)
    (by decide) (by decide) (by decide) (by decide) (by decide) (by decide)
    rfl rfl
  exact ⟨h.1 wireC6 (by decide), h.2 eventC6enc (by decide)⟩

end Pynostr

namespace Pynostr

/-- An encrypted event whose content halves are not base64: `!` is outside
the base64 alphabet, so strict validation rejects them while the lenient
decoder discards them and decodes the empty residue. -/
def eventC7 : Event :=
  { id := none, pubkey := some pubkeyA, created_at := none, kind := some 4,
    tags := [["p", pubkeyB0]], content := some "!!!!?iv=!!!!", sig := none }

/-- C7 counterexample: on the same malformed wire string `"!!!!?iv=!!!!"`,
`PrvKey.decrypt` (which passes `validate=True`) raises the base64 error,
but `Event.decrypt` — whose content-half decoding at `event.py` line 437
calls `base64.b64decode` without `validate` — decodes leniently: the
foreign characters are discarded, the empty residue decodes to the empty
byte string, and decryption returns normally, contradicting the claim that
both paths base64-decode with strict validation. -/
theorem claim7_counterexample :
    PrvKey.decrypt cryptoId 2 "!!!!?iv=!!!!" pubkeyA = .error .base64Err
    ∧ Event.decrypt cryptoId 2 eventC7 = .ok "" := by
  constructor
  · decide
  · decide

/-- C7 (amended): both decryption paths split the ciphertext content on
the literal `"?iv="` and fail with the missing-IV (NIP-04) error when the
separator is absent — here for any event whose matching recipient tag has
no fourth field and whose issuer's shared secret is a valid hex string.
Strict base64 validation of the two halves is applied only on the
`PrvKey.decrypt` path (`claim7_counterexample` exhibits the divergence of
`Event.decrypt`, which decodes leniently). -/
theorem claim7_split_missing_iv
    (P : CryptoPrim) (prv : Nat) (pubkey msg : String)
    (e : Event) (t : List String) (rest : List (List String))
    (hfil : (e.tags.filter fun x => x.getD 1 "" = P.puk prv) = t :: rest)
    (hlen : t.length ≤ 3)
    (hpk : e.pubkey = some pubkey)
    (sshex : String) (key : List Nat)
    (hss : shared_secret P prv pubkey = .ok sshex)
    (hkey : bytesFromHex sshex = some key)
    (hcontent : e.content = some msg)
    (hnosep : ¬ ("?iv=".data <:+: msg.data)) :
    PrvKey.decrypt P prv msg pubkey = .error .nip04
    ∧ Event.decrypt P prv e = .error .nip04 := by
  have hsplit : (splitIv msg.data).map (fun l => (⟨l⟩ : String)) = [msg] := by
    rw [splitIv_no_sep msg.data hnosep]
    rfl
  constructor
  · unfold PrvKey.decrypt
    rw [hsplit]
  · unfold Event.decrypt
    dsimp only
    rw [hfil]
    dsimp only
    rw [hpk]
    simp only [bind, Except.bind]
    rw [List.get?_eq_none.mpr hlen]
    dsimp only
    rw [hss]
    dsimp only
    rw [unhexlify_ok _ _ hkey]
    dsimp only
    unfold contentOrErr
    rw [hcontent]
    dsimp only
    rw [hsplit]

/-- An encrypted event whose content lacks the `"?iv="` separator. -/
def eventC7iv : Event :=
  { id := none, pubkey := some pubkeyA, created_at := none, kind := some 4,
    tags := [["p", pubkeyB0]], content := some "boo", sig := none }

/-- C7 witness: the amended split behaviour evaluated on a concrete
separator-free content, on both paths. -/
theorem claim7_witness :
    PrvKey.decrypt cryptoId 2 "boo" pubkeyA = .error .nip04
    ∧ Event.decrypt cryptoId 2 eventC7iv = .error .nip04 :=
  claim7_split_missing_iv cryptoId 2 pubkeyA "boo" eventC7iv
    ["p", pubkeyB0] [] (by decide) (by decide) rfl "0a" [10]
    (by decide) (by decide) rfl (by decide)

end Pynostr
